import Mathlib

/-!
Verification development for the quay-mcp-server repository.

Go strings are modelled as lists of characters; the Go standard-library string
functions used by the source (strings.HasPrefix, strings.TrimPrefix,
strings.TrimRight, strings.ReplaceAll, url.QueryEscape, ...) are embedded as
recursive functions below, and each client function of the source is embedded
under its source name.  Network effects are modelled by passing the response
of each HTTP request as an explicit argument and recording the list of request
URLs the function issues.
-/

namespace QuayMCP

/-- Strings of the Go source, modelled as lists of characters. -/
abbrev Str := List Char

/-- Character list of a Lean string literal, used to write concrete inputs. -/
def strL (s : String) : Str := s.data

/-- Models Go strings.HasPrefix: the second argument begins with the first. -/
def startsWith : Str → Str → Bool
  | [], _ => true
  | _ :: _, [] => false
  | a :: p, b :: s => if a = b then startsWith p s else false

/-- Models Go strings.TrimPrefix: remove the given leading text once, when present. -/
def trimLeading (p s : Str) : Str := if startsWith p s then s.drop p.length else s

/-- Models Go strings.TrimSuffix: remove the given trailing text once, when present. -/
def trimSuffixStr (suf s : Str) : Str :=
  if startsWith suf.reverse s.reverse then (s.reverse.drop suf.length).reverse else s

/-- Models Go strings.TrimRight with a one-character cut set: drop all trailing copies. -/
def dropTrailing (c : Char) (s : Str) : Str := (s.reverse.dropWhile (· = c)).reverse

/-- Models Go strings.TrimLeft with a one-character cut set: drop all leading copies. -/
def dropLeading (c : Char) (s : Str) : Str := s.dropWhile (· = c)

/-- Models Go strings.Trim with a one-character cut set. -/
def trimChar (c : Char) (s : Str) : Str := dropTrailing c (dropLeading c s)

/-- Scan of Go strings.ReplaceAll for a non-empty pattern: replace
non-overlapping occurrences left to right, continuing after each replacement.
The counter carries how many characters of a just-replaced occurrence are
still to be passed over. -/
def replaceSkip (old new : Str) : Nat → Str → Str
  | _, [] => []
  | k + 1, _ :: rest => replaceSkip old new k rest
  | 0, c :: rest =>
    if startsWith old (c :: rest) && !old.isEmpty then
      new ++ replaceSkip old new (old.length - 1) rest
    else
      c :: replaceSkip old new 0 rest

/-- Models Go strings.ReplaceAll, including the empty-pattern case where the
replacement is inserted before, between and after the characters. -/
def replaceAll (s old new : Str) : Str :=
  if old.isEmpty then new ++ (s.map (fun c => c :: new)).flatten
  else replaceSkip old new 0 s

/-- Character class kept verbatim by Go url.QueryEscape. -/
def isUnreserved (c : Char) : Bool :=
  (decide ('A' ≤ c) && decide (c ≤ 'Z')) || (decide ('a' ≤ c) && decide (c ≤ 'z')) ||
  (decide ('0' ≤ c) && decide (c ≤ '9')) ||
  decide (c = '-') || decide (c = '_') || decide (c = '.') || decide (c = '~')

/-- Upper-case hexadecimal digit emitted by Go url.QueryEscape. -/
def hexDigit (n : Nat) : Char := if n < 10 then Char.ofNat (48 + n) else Char.ofNat (55 + n)

/-- Escaping of one character by Go url.QueryEscape (byte-level, exact on ASCII). -/
def escapeChar (c : Char) : Str :=
  if c = ' ' then ['+'] else ['%', hexDigit (c.toNat / 16), hexDigit (c.toNat % 16)]

/-- Models Go url.QueryEscape on ASCII text. -/
def queryEscape (s : Str) : Str :=
  (s.map (fun c => if isUnreserved c then [c] else escapeChar c)).flatten

/-- Token view of a path template: literal text or a placeholder capture. -/
inductive Tok where
  | lit (s : Str)
  | cap (name : Str)
deriving DecidableEq

/-- Prepend one literal character to a token list, merging into a leading literal. -/
def consLit (c : Char) : List Tok → List Tok
  | Tok.lit l :: ts => Tok.lit (c :: l) :: ts
  | ts => Tok.lit [c] :: ts

/-- Scanner state: outside any placeholder, or inside one with the name
characters read so far, in reverse. -/
def parseToksAux : Option Str → Str → List Tok
  | none, [] => []
  | none, c :: rest =>
    if c = '{' then parseToksAux (some []) rest else consLit c (parseToksAux none rest)
  | some pending, [] => [Tok.lit ('{' :: pending.reverse)]
  | some pending, c :: rest =>
    if c = '}' then
      if pending.isEmpty then consLit '{' (consLit '}' (parseToksAux none rest))
      else Tok.cap pending.reverse :: parseToksAux none rest
    else parseToksAux (some (c :: pending)) rest

/-- Leftmost scan of the placeholder pattern used by extractPathParameters:
a placeholder is an opening brace, one or more characters other than a closing
brace, then a closing brace; everything else is literal text. -/
def parseToks (s : Str) : List Tok := parseToksAux none s

/-- Placeholder names of a token list, in order. -/
def capNames : List Tok → List Str
  | [] => []
  | Tok.lit _ :: ts => capNames ts
  | Tok.cap n :: ts => n :: capNames ts

/-- Number of placeholders in a token list. -/
def numCaps (ts : List Tok) : Nat := (capNames ts).length

/-- Text of a token list, placeholders rendered back in brace form. -/
def renderToks : List Tok → Str
  | [] => []
  | Tok.lit l :: ts => l ++ renderToks ts
  | Tok.cap n :: ts => '{' :: (n ++ '}' :: renderToks ts)

/-- Substitution of placeholder values by name; unsupplied placeholders stay
in brace form. -/
def substNamed (ts : List Tok) (f : Str → Option Str) : Str :=
  match ts with
  | [] => []
  | Tok.lit l :: ts => l ++ substNamed ts f
  | Tok.cap n :: ts =>
    (match f n with | some v => v | none => '{' :: (n ++ ['}'])) ++ substNamed ts f

/-- Greedy capture search: try capture lengths from the longest candidate down
to one, resuming the given matcher on the remaining text. -/
def capTry (m : Str → Option (List Str)) (s : Str) : Nat → Option (List Str)
  | 0 => none
  | k + 1 =>
    match m (s.drop (k + 1)) with
    | some caps => some (s.take (k + 1) :: caps)
    | none => capTry m s k

/-- Anchored backtracking match of a token list against text under the
verbatim reading of the template: a literal matches its own characters and
each placeholder captures one or more characters other than the path
separator, greedily, with the whole text consumed.  This coincides with the
compiled pattern of extractPathParameters exactly when every literal is free
of regexp metacharacters (matchR below carries the compiled semantics, and
matchR_flat is the bridge). -/
def matchToks : List Tok → Str → Option (List Str)
  | [], [] => some []
  | [], _ :: _ => none
  | Tok.lit l :: ts, s => if startsWith l s then matchToks ts (s.drop l.length) else none
  | Tok.cap _ :: ts, s => capTry (matchToks ts) s (s.takeWhile (· ≠ '/')).length

/-- Characters the Go regexp syntax treats specially; a pattern chunk
containing none of them is matched verbatim by the compiled pattern. -/
def regexMeta : List Char :=
  ['\\', '.', '+', '*', '?', '(', ')', '|', '[', ']', '\x7b', '\x7d', '^', '$']

/-- Atom of a compiled pattern: one ordinary character matched verbatim, the
dot wildcard, or the single-segment capture group spliced in for a
placeholder. -/
inductive RTok where
  | rlit (c : Char)
  | rdot
  | rcap
deriving DecidableEq

/-- Compilation of one literal chunk of the spliced pattern source: an
ordinary character matches itself and a dot is a wildcard.  Any other
metacharacter lies outside the modelled fragment of the regexp syntax and is
treated as a compilation failure; this matches Go exactly when the
metacharacter makes the pattern ill-formed, such as an unbalanced opening
parenthesis, and no theorem below quantifies over the remaining
metacharacter cases. -/
def compileLit : Str → Option (List RTok)
  | [] => some []
  | c :: rest =>
    if c = '.' then (compileLit rest).map (fun rs => RTok.rdot :: rs)
    else if regexMeta.contains c then none
    else (compileLit rest).map (fun rs => RTok.rlit c :: rs)

/-- Models regexp.Compile on the anchored pattern the source splices
together from the template: each placeholder contributes the single-segment
capture group and each literal chunk is compiled character by character as
regexp source. -/
def compileToks : List Tok → Option (List RTok)
  | [] => some []
  | Tok.lit l :: ts =>
    match compileLit l, compileToks ts with
    | some rs, some rest => some (rs ++ rest)
    | _, _ => none
  | Tok.cap _ :: ts => (compileToks ts).map (fun rest => RTok.rcap :: rest)

/-- Anchored leftmost-first match of a compiled pattern, as Go
FindStringSubmatch performs on a pattern anchored at both ends: an ordinary
character matches itself, the dot matches any character other than a
newline, and each capture group takes one or more characters other than the
path separator, greedily with backtracking. -/
def matchR : List RTok → Str → Option (List Str)
  | [], [] => some []
  | [], _ :: _ => none
  | RTok.rlit _ :: _, [] => none
  | RTok.rlit c :: rs, d :: s => if c = d then matchR rs s else none
  | RTok.rdot :: _, [] => none
  | RTok.rdot :: rs, d :: s => if d = '\n' then none else matchR rs s
  | RTok.rcap :: rs, s => capTry (matchR rs) s (s.takeWhile (· ≠ '/')).length

/-- Is a literal chunk free of regexp metacharacters, the dot included. -/
def plainLit (l : Str) : Bool := l.all (fun c => !regexMeta.contains c)

/-- Are all literal chunks of a token list free of regexp metacharacters. -/
def plainToks (ts : List Tok) : Bool :=
  ts.all (fun t => match t with | Tok.lit l => plainLit l | Tok.cap _ => true)

/-- Compiled form of a plain token list: literals character by character,
one capture group per placeholder. -/
def flatToks : List Tok → List RTok
  | [] => []
  | Tok.lit l :: ts => l.map RTok.rlit ++ flatToks ts
  | Tok.cap _ :: ts => RTok.rcap :: flatToks ts

/-- Models HasPathParameters: a path contains parameters when it contains both braces. -/
def HasPathParameters (path : Str) : Bool := path.contains '{' && path.contains '}'

/-- Scanner state of extractPathParameterNames: outside any placeholder, or
inside one with the name characters read so far, in reverse. -/
def extractNamesAux : Option Str → Str → List Str
  | _, [] => []
  | none, c :: rest =>
    if c = '{' then extractNamesAux (some []) rest else extractNamesAux none rest
  | some pending, c :: rest =>
    if c = '}' then pending.reverse :: extractNamesAux none rest
    else extractNamesAux (some (c :: pending)) rest

/-- Models the manual scanner extractPathParameterNames: find an opening brace,
then the next closing brace after it; the text between is a parameter name
(possibly empty); stop when no closing brace follows. -/
def extractPathParameterNames (path : Str) : List Str := extractNamesAux none path

/-- Assignment into a Go map modelled as an association list: overwrite the
existing binding in place, otherwise append. -/
def mapAssign {α : Type} (m : List (Str × α)) (k : Str) (v : α) : List (Str × α) :=
  match m with
  | [] => [(k, v)]
  | (k2, v2) :: rest => if k2 = k then (k, v) :: rest else (k2, v2) :: mapAssign rest k v

/-- Lookup in a Go map modelled as an association list. -/
def mapLookup {α : Type} (m : List (Str × α)) (k : Str) : Option α :=
  match m with
  | [] => none
  | (k2, v2) :: rest => if k2 = k then some v2 else mapLookup rest k

/-- Normalization applied by extractPathParameters to the resource key. -/
def normKey (resourceURI : Str) : Str :=
  let r := trimLeading (strL "quay://") resourceURI
  if startsWith (strL "/") r then r else '/' :: r

/-- Models extractPathParameters: strip the quay scheme, ensure a leading
separator, splice the template into an anchored pattern with one
single-segment capture group per placeholder, compile the pattern, and on a
match assign each captured value to its parameter name.  A compilation
failure is silent — the source only acts under its err-is-nil guard — and
yields no parameters, and the template literal text is regexp source, so a
dot in it matches any character. -/
def extractPathParameters (resourceURI pathTemplate : Str) : List (Str × Str) :=
  let resourcePath := normKey resourceURI
  let ts := parseToks pathTemplate
  let paramNames := capNames ts
  if paramNames.length > 0 then
    match compileToks ts with
    | none => []
    | some rs =>
      match matchR rs resourcePath with
      | some caps => (paramNames.zip caps).foldl (fun m kv => mapAssign m kv.1 kv.2) []
      | none => []
  else []

/-- Base-path information of the loaded swagger model; the option models a nil model. -/
structure ModelInfo where
  basePath : Str
deriving DecidableEq

/-- Base URL assembly shared by BuildAPIURL and BuildAPIURLWithParams. -/
def baseOf (registryURL : Str) (model : Option ModelInfo) : Str :=
  match model with
  | some mi =>
    if mi.basePath.isEmpty then registryURL
    else dropTrailing '/' registryURL ++ '/' :: dropLeading '/' mi.basePath
  | none => registryURL

/-- Models BuildAPIURL: base URL plus endpoint path, then every parameter
extracted from the resource URI substituted by ReplaceAll. -/
def BuildAPIURL (registryURL : Str) (model : Option ModelInfo)
    (endpointPath resourceURI : Str) : Str :=
  let fullURL := dropTrailing '/' (baseOf registryURL model) ++ endpointPath
  (extractPathParameters resourceURI endpointPath).foldl
    (fun u kv => replaceAll u ('{' :: (kv.1 ++ ['}'])) kv.2) fullURL

/-- Reserved argument key skipped by the named-argument builder. -/
def rURI : Str := strL "resource_uri"

/-- Models BuildAPIURLWithParams: partition the arguments into path and query
parameters, substitute path parameters by ReplaceAll in template order, then
append the percent-encoded query suffix when a non-empty value exists.  The
argument list carries the map entries in Go map iteration order. -/
def BuildAPIURLWithParams (registryURL : Str) (model : Option ModelInfo)
    (endpointPath : Str) (params : List (Str × Str)) : Str :=
  let pathParamNames := extractPathParameterNames endpointPath
  let pathParams := params.filter (fun kv => decide (kv.1 ≠ rURI) && pathParamNames.contains kv.1)
  let queryParams := params.filter (fun kv => decide (kv.1 ≠ rURI) && !pathParamNames.contains kv.1)
  let finalPath :=
    if HasPathParameters endpointPath then
      pathParamNames.foldl (fun fp n =>
        match mapLookup pathParams n with
        | some v => replaceAll fp ('{' :: (n ++ ['}'])) v
        | none => fp) endpointPath
    else endpointPath
  let fullURL := dropTrailing '/' (baseOf registryURL model) ++ finalPath
  let queryParts := queryParams.filterMap (fun kv =>
    if kv.2.isEmpty then none else some (kv.1 ++ '=' :: queryEscape kv.2))
  if queryParts.isEmpty then fullURL else fullURL ++ '?' :: List.intercalate ['&'] queryParts


/-- Declared operation parameter of the swagger model: name, location (the
JSON field named in), description, required flag. -/
structure Parameter where
  name : Str
  paramIn : Str
  description : Str
  required : Bool
deriving DecidableEq

/-- Operation of the swagger model. -/
structure Operation where
  summary : Str := []
  description : Str := []
  operationId : Str := []
  tags : List Str := []
  parameters : List Parameter := []
deriving DecidableEq

/-- Path item of the swagger model, one optional operation per HTTP method;
only the get operation is ever inspected by the client. -/
structure PathItem where
  get : Option Operation := none
  post : Option Operation := none
  put : Option Operation := none
  delete : Option Operation := none
  patch : Option Operation := none
  head : Option Operation := none
  options : Option Operation := none
deriving DecidableEq

/-- Endpoint information stored by DiscoverEndpoints. -/
structure EndpointInfo where
  method : Str
  path : Str
  summary : Str
  operationID : Str
  tags : List Str
  parameters : List Parameter
deriving DecidableEq

/-- Paths of a parsed swagger document in document order; the option models a
nil document model. -/
abbrev SwaggerPaths := Option (List (Str × PathItem))

/-- Allowed tag set of DiscoverEndpoints. -/
def allowedTagsDiscover : List Str :=
  [strL "manifest", strL "organization", strL "repository", strL "robot", strL "tag", strL "team"]

/-- Tag filter: does any operation tag occur in the allowed set (case-sensitive). -/
def hasAllowedTag (tags allowed : List Str) : Bool := tags.any (fun t => allowed.contains t)

/-- Resource key synthesized for a path. -/
def mkURI (path : Str) : Str := strL "quay://" ++ trimLeading (strL "/") path

/-- Endpoint record stored for a path and its GET operation. -/
def mkEndpointInfo (path : Str) (op : Operation) : EndpointInfo :=
  { method := strL "GET", path := path, summary := op.summary,
    operationID := op.operationId, tags := op.tags, parameters := op.parameters }

/-- Models DiscoverEndpoints: walk the paths in order, keep GET operations
whose tags meet the allowed set, and assign each endpoint into the map under
its synthesized resource key. -/
def DiscoverEndpoints (model : SwaggerPaths) : List (Str × EndpointInfo) :=
  match model with
  | none => []
  | some paths =>
    paths.foldl (fun eps pi =>
      match pi.2.get with
      | none => eps
      | some op =>
        if hasAllowedTag op.tags allowedTagsDiscover then
          mapAssign eps (mkURI pi.1) (mkEndpointInfo pi.1 op)
        else eps) []

/-- Tool descriptor: name, description, schema property names in insertion
order, and the required-parameter name list. -/
structure Tool where
  name : Str
  description : Str
  properties : List Str
  required : List Str
deriving DecidableEq

/-- Insertion of a schema property name: adding an existing name overwrites
the stored property and leaves the name set unchanged. -/
def insertName (ps : List Str) (n : Str) : List Str := if ps.contains n then ps else ps ++ [n]

/-- Allowed tag set of generateTools (the team tag is absent here). -/
def allowedTagsTools : List Str :=
  [strL "manifest", strL "organization", strL "repository", strL "robot", strL "tag"]

/-- Tool name derived from an operation id, or from the path with separators
joined and braces stripped, with a fixed fallback for an empty result. -/
def toolNameOf (path : Str) (op : Operation) : Str :=
  if op.operationId.isEmpty then
    let t1 := replaceAll (trimChar '/' path) (strL "/") (strL "_")
    let t2 := replaceAll t1 (strL "\x7b") []
    let t3 := replaceAll t2 (strL "\x7d") []
    strL "quay_" ++ (if t3.isEmpty then strL "root" else t3)
  else strL "quay_" ++ op.operationId

/-- Description text of a generated tool. -/
def toolDescriptionOf (path : Str) (op : Operation) : Str :=
  let d :=
    if op.summary.isEmpty then
      (if op.description.isEmpty then strL "GET " ++ path else op.description)
    else op.summary
  let d2 := d ++ strL "\nEndpoint: GET " ++ path
  if op.tags.isEmpty then d2 else d2 ++ strL "\nTags: " ++ List.intercalate (strL ", ") op.tags

/-- Tool generated for one path and GET operation: required path parameters,
optional query parameters, and the always-optional reserved resource_uri. -/
def toolOf (path : Str) (op : Operation) : Tool :=
  let t0 : Tool :=
    { name := toolNameOf path op, description := toolDescriptionOf path op,
      properties := [], required := [] }
  let t1 :=
    if HasPathParameters path then
      (extractPathParameterNames path).foldl (fun t n =>
        { t with properties := insertName t.properties n, required := t.required ++ [n] }) t0
    else t0
  let t2 := op.parameters.foldl (fun t p =>
    if p.paramIn = strL "query" then { t with properties := insertName t.properties p.name }
    else t) t1
  { t2 with properties := insertName t2.properties rURI }

/-- Models generateTools: walk the paths in order and project every GET
operation holding an allowed tag into a tool descriptor. -/
def generateTools (model : SwaggerPaths) : List Tool :=
  match model with
  | none => []
  | some paths =>
    paths.filterMap (fun pi =>
      match pi.2.get with
      | none => none
      | some op =>
        if hasAllowedTag op.tags allowedTagsTools then some (toolOf pi.1 op) else none)

/-- Response of one HTTP request: a transport failure or a status with a body. -/
inductive HTTPResp where
  | fail
  | resp (status : Nat) (body : Str)
deriving DecidableEq

/-- Typed error of the dispatcher, carrying status code and body text. -/
inductive APIErr where
  | transport
  | api (status : Nat) (body : Str)
deriving DecidableEq

deriving instance DecidableEq for Except

/-- Outcome of one dispatch: the request URLs issued and the result. -/
structure CallResult where
  requests : List Str
  outcome : Except APIErr Str
deriving DecidableEq

/-- Shared request logic of MakeAPICall and MakeAPICallWithParams: issue the
request once; a transport failure or a status of at least 400 is an error
carrying status and body; otherwise the body bytes are returned unmodified. -/
def apiCallCore (apiURL : Str) (r : HTTPResp) : CallResult :=
  { requests := [apiURL],
    outcome :=
      match r with
      | HTTPResp.fail => Except.error APIErr.transport
      | HTTPResp.resp st body =>
        if 400 ≤ st then Except.error (APIErr.api st body) else Except.ok body }

/-- Models MakeAPICall for a GET endpoint, the response supplied explicitly. -/
def MakeAPICall (registryURL : Str) (model : Option ModelInfo) (endpointPath resourceURI : Str)
    (r : HTTPResp) : CallResult :=
  apiCallCore (BuildAPIURL registryURL model endpointPath resourceURI) r

/-- Models MakeAPICallWithParams, the response supplied explicitly. -/
def MakeAPICallWithParams (registryURL : Str) (model : Option ModelInfo) (endpointPath : Str)
    (params : List (Str × Str)) (r : HTTPResp) : CallResult :=
  apiCallCore (BuildAPIURLWithParams registryURL model endpointPath params) r

/-- Response of one discovery request: transport failure or a status plus the
parse outcome of the body (none models a body the swagger parser rejects). -/
inductive DiscResp where
  | fail
  | resp (status : Nat) (body : Option (List (Str × PathItem)))
deriving DecidableEq

/-- Terminal discovery errors of FetchSwaggerSpec. -/
inductive DiscErr where
  | transport
  | transportFallback
  | badStatus (code : Nat)
  | parseFailed
deriving DecidableEq

/-- Outcome of discovery: the request URLs issued, in order, and the result. -/
structure FetchResult where
  requests : List Str
  outcome : Except DiscErr (List (Str × PathItem))
deriving DecidableEq

/-- Primary well-known discovery URL. -/
def primaryURL (registryURL : Str) : Str :=
  trimSuffixStr (strL "/") registryURL ++ strL "/api/v1/discovery"

/-- Secondary well-known discovery URL. -/
def fallbackURL (registryURL : Str) : Str :=
  trimSuffixStr (strL "/") registryURL ++ strL "/discovery"

/-- Status and parse handling shared by the primary and fallback branches. -/
def finishFetch (st : Nat) (body : Option (List (Str × PathItem))) :
    Except DiscErr (List (Str × PathItem)) :=
  if st ≠ 200 then Except.error (DiscErr.badStatus st)
  else
    match body with
    | none => Except.error DiscErr.parseFailed
    | some m => Except.ok m

/-- Does a discovery response carry the not-found status. -/
def is404 : DiscResp → Bool
  | DiscResp.resp 404 _ => true
  | _ => false

/-- Models FetchSwaggerSpec: request the primary URL; only on a 404 status is
the fallback URL requested, once; the selected response must then have status
200 and a body the parser accepts. -/
def FetchSwaggerSpec (registryURL : Str) (primary fallback : DiscResp) : FetchResult :=
  match primary with
  | DiscResp.fail =>
    { requests := [primaryURL registryURL], outcome := Except.error DiscErr.transport }
  | DiscResp.resp st body =>
    if st = 404 then
      match fallback with
      | DiscResp.fail =>
        { requests := [primaryURL registryURL, fallbackURL registryURL],
          outcome := Except.error DiscErr.transportFallback }
      | DiscResp.resp st2 body2 =>
        { requests := [primaryURL registryURL, fallbackURL registryURL],
          outcome := finishFetch st2 body2 }
    else { requests := [primaryURL registryURL], outcome := finishFetch st body }


/-- Brace form of a placeholder name, the pattern passed to ReplaceAll. -/
def ph (n : Str) : Str := '{' :: (n ++ ['}'])

/-- Text free of both braces. -/
def braceFree (s : Str) : Prop := '{' ∉ s ∧ '}' ∉ s

instance (s : Str) : Decidable (braceFree s) := by
  unfold braceFree
  infer_instance

/-- Well-formed literal piece: non-empty and free of braces. -/
def litOK (l : Str) : Bool := !l.isEmpty && !l.contains '{' && !l.contains '}'

/-- Well-formed placeholder name: non-empty and free of braces. -/
def nameOK (n : Str) : Bool := !n.isEmpty && !n.contains '{' && !n.contains '}'

/-- Canonical well-formed token list: literals and names are non-empty and
brace-free, and no two literals are adjacent, so the list is exactly what the
placeholder scan recovers from its rendered text. -/
def toksWF : List Tok → Bool
  | [] => true
  | Tok.cap n :: ts => nameOK n && toksWF ts
  | Tok.lit l :: [] => litOK l
  | Tok.lit _ :: Tok.lit _ :: _ => false
  | Tok.lit l :: Tok.cap n :: ts => litOK l && toksWF (Tok.cap n :: ts)

/-- Partially substituted template: placeholders whose name was already
processed show their supplied value, others stay in brace form. -/
def renderPart (ts : List Tok) (f : Str → Option Str) (done : List Str) : Str :=
  match ts with
  | [] => []
  | Tok.lit l :: ts => l ++ renderPart ts f done
  | Tok.cap n :: ts =>
    (if n ∈ done then (match f n with | some v => v | none => ph n) else ph n)
      ++ renderPart ts f done

/-- Value supplied for a placeholder name by the argument map; the reserved
resource_uri key supplies nothing. -/
def lookupArg (params : List (Str × Str)) (n : Str) : Option Str :=
  if n = rURI then none else mapLookup params n

/-- Query items of the argument map: every entry whose name is not reserved,
is no placeholder name, and has a non-empty value, percent-encoded. -/
def queryItems (params : List (Str × Str)) (names : List Str) : List Str :=
  params.filterMap (fun kv =>
    if kv.1 = rURI ∨ names.contains kv.1 = true ∨ kv.2 = [] then none
    else some (kv.1 ++ '=' :: queryEscape kv.2))

/-- Query suffix: empty without query items, otherwise the joined items after
a question mark. -/
def querySuffixOf (params : List (Str × Str)) (names : List Str) : Str :=
  if (queryItems params names).isEmpty then []
  else '?' :: List.intercalate ['&'] (queryItems params names)

/-- Declarative matching of a token list: the text decomposes into the
literals and one non-empty separator-free capture per placeholder. -/
inductive TemplateMatch : List Tok → Str → List Str → Prop
  | nil : TemplateMatch [] [] []
  | lit (l : Str) (ts : List Tok) (s : Str) (caps : List Str) :
      TemplateMatch ts s caps → TemplateMatch (Tok.lit l :: ts) (l ++ s) caps
  | cap (n v : Str) (ts : List Tok) (s : Str) (caps : List Str) :
      v ≠ [] → (∀ c ∈ v, c ≠ '/') → TemplateMatch ts s caps →
      TemplateMatch (Tok.cap n :: ts) (v ++ s) (v :: caps)

/-- Catalog entry produced by DiscoverEndpoints for one path item, when any. -/
def entryOf (pi : Str × PathItem) : Option (Str × EndpointInfo) :=
  match pi.2.get with
  | none => none
  | some op =>
    if hasAllowedTag op.tags allowedTagsDiscover then
      some (mkURI pi.1, mkEndpointInfo pi.1 op)
    else none

/-- Tool generated by generateTools for one path item, when any. -/
def toolEntryOf (pi : Str × PathItem) : Option Tool :=
  match pi.2.get with
  | none => none
  | some op =>
    if hasAllowedTag op.tags allowedTagsTools then some (toolOf pi.1 op) else none

/-- Successful HTTP status class. -/
def is2xx (st : Nat) : Prop := 200 ≤ st ∧ st < 300

instance (st : Nat) : Decidable (is2xx st) := by
  unfold is2xx
  infer_instance

/-! Basic lemmas about the embedded string primitives. -/

theorem startsWith_append (p t : Str) : startsWith p (p ++ t) = true := by
  induction p with
  | nil => simp [startsWith]
  | cons a p ih => simp [startsWith, ih]

theorem eq_append_drop_of_startsWith {p s : Str} (h : startsWith p s = true) :
    s = p ++ s.drop p.length := by
  induction p generalizing s with
  | nil => simp
  | cons a p ih =>
    cases s with
    | nil => simp [startsWith] at h
    | cons b s =>
      simp only [startsWith] at h
      by_cases hab : a = b
      · subst hab
        rw [if_pos rfl] at h
        simpa using ih h
      · rw [if_neg hab] at h
        exact absurd h (by simp)

theorem startsWith_cons_ne {a : Char} {p : Str} {b : Char} (s : Str) (h : a ≠ b) :
    startsWith (a :: p) (b :: s) = false := by
  simp only [startsWith, if_neg h]

theorem replaceSkip_nil (old new : Str) (k : Nat) : replaceSkip old new k [] = [] := by
  cases k <;> simp [replaceSkip]

theorem replaceSkip_skip (old new : Str) (a : Str) :
    ∀ t : Str, replaceSkip old new a.length (a ++ t) = replaceSkip old new 0 t := by
  induction a with
  | nil => intro t; simp
  | cons c a ih => intro t; simpa [replaceSkip] using ih t

theorem ph_ne_nil (n : Str) : ph n ≠ [] := by simp [ph]

theorem length_ph_sub_one (n : Str) : (ph n).length - 1 = (n ++ ['\x7d']).length := by
  simp [ph]

theorem replaceSkip_lit (n v : Str) {b : Str} (hb : '\x7b' ∉ b) (t : Str) :
    replaceSkip (ph n) v 0 (b ++ t) = b ++ replaceSkip (ph n) v 0 t := by
  induction b with
  | nil => simp
  | cons c b ih =>
    have hc : c ≠ '\x7b' := fun h => hb (h ▸ List.mem_cons_self c b)
    have hb2 : '\x7b' ∉ b := fun h => hb (List.mem_cons_of_mem c h)
    have hsw : startsWith (ph n) (c :: (b ++ t)) = false :=
      startsWith_cons_ne _ (Ne.symm hc)
    simp [List.cons_append, replaceSkip, hsw, ih hb2]

theorem startsWith_name_false {n : Str} :
    ∀ {m : Str}, m ≠ n → '\x7d' ∉ m → '\x7d' ∉ n →
      ∀ t : Str, startsWith (n ++ ['\x7d']) (m ++ '\x7d' :: t) = false := by
  induction n with
  | nil =>
    intro m hne hm _ t
    cases m with
    | nil => exact absurd rfl hne
    | cons c m =>
      have hc : c ≠ '\x7d' := fun h => hm (h ▸ List.mem_cons_self c m)
      simpa using startsWith_cons_ne (m ++ '\x7d' :: t) (Ne.symm hc)
  | cons a n ih =>
    intro m hne hm hn t
    cases m with
    | nil =>
      have ha : a ≠ '\x7d' := fun h => hn (h ▸ List.mem_cons_self a n)
      simpa using startsWith_cons_ne t ha
    | cons c m =>
      by_cases hac : a = c
      · subst hac
        have hmn : m ≠ n := fun h => hne (by rw [h])
        have hm2 : '\x7d' ∉ m := fun h => hm (List.mem_cons_of_mem a h)
        have hn2 : '\x7d' ∉ n := fun h => hn (List.mem_cons_of_mem a h)
        simpa [startsWith] using ih hmn hm2 hn2 t
      · simpa using startsWith_cons_ne (m ++ '\x7d' :: t) hac

theorem replaceSkip_ph_other (n v : Str) {m : Str} (hne : m ≠ n)
    (hm : braceFree m) (hn2 : '\x7d' ∉ n) (t : Str) :
    replaceSkip (ph n) v 0 (ph m ++ t) = ph m ++ replaceSkip (ph n) v 0 t := by
  have e : ph m ++ t = '\x7b' :: (m ++ '\x7d' :: t) := by simp [ph]
  rw [e]
  have hsw : startsWith (ph n) ('\x7b' :: (m ++ '\x7d' :: t)) = false := by
    have h1 := startsWith_name_false hne hm.2 hn2 t
    simpa [ph, startsWith]
  have step1 : replaceSkip (ph n) v 0 ('\x7b' :: (m ++ '\x7d' :: t))
      = '\x7b' :: replaceSkip (ph n) v 0 (m ++ '\x7d' :: t) := by
    simp [replaceSkip, hsw]
  rw [step1, replaceSkip_lit n v hm.1 ('\x7d' :: t)]
  have hsw2 : startsWith (ph n) ('\x7d' :: t) = false :=
    startsWith_cons_ne _ (by decide)
  have step2 : replaceSkip (ph n) v 0 ('\x7d' :: t)
      = '\x7d' :: replaceSkip (ph n) v 0 t := by
    simp [replaceSkip, hsw2]
  rw [step2]
  simp [ph]

theorem replaceSkip_ph_self (n v : Str) (t : Str) :
    replaceSkip (ph n) v 0 (ph n ++ t) = v ++ replaceSkip (ph n) v 0 t := by
  have e : ph n ++ t = '\x7b' :: (n ++ '\x7d' :: t) := by simp [ph]
  rw [e]
  have hsw : startsWith (ph n) ('\x7b' :: (n ++ '\x7d' :: t)) = true := by
    have h1 := startsWith_append (ph n) t
    rw [e] at h1
    exact h1
  have hne : (ph n).isEmpty = false := by simp [ph]
  have step1 : replaceSkip (ph n) v 0 ('\x7b' :: (n ++ '\x7d' :: t))
      = v ++ replaceSkip (ph n) v ((ph n).length - 1) (n ++ '\x7d' :: t) := by
    simp [replaceSkip, hsw, hne]
  rw [step1, length_ph_sub_one]
  have e2 : n ++ '\x7d' :: t = (n ++ ['\x7d']) ++ t := by simp
  rw [e2, replaceSkip_skip]

/-! Lemmas about the sequential ReplaceAll substitution of BuildAPIURLWithParams. -/

theorem renderPart_step (f : Str → Option Str) (n v : Str) :
    ∀ (ts : List Tok) (done : List Str),
      (∀ l, Tok.lit l ∈ ts → braceFree l) → (∀ m, Tok.cap m ∈ ts → braceFree m) →
      (∀ m w, f m = some w → braceFree w) → braceFree n → f n = some v →
      replaceSkip (ph n) v 0 (renderPart ts f done) = renderPart ts f (done ++ [n]) := by
  intro ts
  induction ts with
  | nil => intro done _ _ _ _ _; simp [renderPart, replaceSkip_nil]
  | cons t ts ih =>
    intro done hlit hcap hfv hn hv
    have hlit2 : ∀ l, Tok.lit l ∈ ts → braceFree l :=
      fun l h => hlit l (List.mem_cons_of_mem t h)
    have hcap2 : ∀ m, Tok.cap m ∈ ts → braceFree m :=
      fun m h => hcap m (List.mem_cons_of_mem t h)
    have ihx := ih done hlit2 hcap2 hfv hn hv
    cases t with
    | lit l =>
      have hbl : braceFree l := hlit l (List.mem_cons_self _ _)
      simp only [renderPart]
      rw [replaceSkip_lit n v hbl.1, ihx]
    | cap m =>
      have hbm : braceFree m := hcap m (List.mem_cons_self _ _)
      simp only [renderPart]
      by_cases hdone : m ∈ done
      · have hdone2 : m ∈ done ++ [n] := List.mem_append_left _ hdone
        rw [if_pos hdone, if_pos hdone2]
        cases hf : f m with
        | some w =>
          have hbw : braceFree w := hfv m w hf
          rw [replaceSkip_lit n v hbw.1, ihx]
        | none =>
          have hmn : m ≠ n := fun h => by rw [h, hv] at hf; exact Option.noConfusion hf
          rw [replaceSkip_ph_other n v hmn hbm hn.2, ihx]
      · rw [if_neg hdone]
        by_cases hmn : m = n
        · subst hmn
          have hdone2 : m ∈ done ++ [m] := List.mem_append_right _ (List.mem_singleton.2 rfl)
          rw [if_pos hdone2, hv, replaceSkip_ph_self, ihx]
        · have hdone2 : m ∉ done ++ [n] := by
            intro h
            rcases List.mem_append.1 h with h1 | h1
            · exact hdone h1
            · exact hmn (List.mem_singleton.1 h1)
          rw [if_neg hdone2, replaceSkip_ph_other n v hmn hbm hn.2, ihx]

theorem renderPart_skip (f : Str → Option Str) (n : Str) (hf : f n = none) :
    ∀ (ts : List Tok) (d1 d2 : List Str), (∀ m, m ≠ n → (m ∈ d1 ↔ m ∈ d2)) →
      renderPart ts f d1 = renderPart ts f d2 := by
  intro ts
  induction ts with
  | nil => intro d1 d2 _; simp [renderPart]
  | cons t ts ih =>
    intro d1 d2 hd
    cases t with
    | lit l => simp only [renderPart]; rw [ih d1 d2 hd]
    | cap m =>
      simp only [renderPart]
      rw [ih d1 d2 hd]
      by_cases hmn : m = n
      · subst hmn
        by_cases h1 : m ∈ d1 <;> by_cases h2 : m ∈ d2 <;>
          simp [h1, h2, hf]
      · have hiff := hd m hmn
        by_cases h1 : m ∈ d1
        · rw [if_pos h1, if_pos (hiff.1 h1)]
        · rw [if_neg h1, if_neg (fun h => h1 (hiff.2 h))]

theorem renderPart_fold (ts : List Tok) (f : Str → Option Str)
    (hlit : ∀ l, Tok.lit l ∈ ts → braceFree l) (hcap : ∀ m, Tok.cap m ∈ ts → braceFree m)
    (hfv : ∀ m w, f m = some w → braceFree w) :
    ∀ (names done : List Str), (∀ n ∈ names, braceFree n) →
      List.foldl (fun fp n => match f n with | some v => replaceAll fp (ph n) v | none => fp)
        (renderPart ts f done) names = renderPart ts f (done ++ names) := by
  intro names
  induction names with
  | nil => intro done _; simp
  | cons n names ih =>
    intro done hbn
    have hn : braceFree n := hbn n (List.mem_cons_self _ _)
    have hbn2 : ∀ m ∈ names, braceFree m := fun m h => hbn m (List.mem_cons_of_mem n h)
    simp only [List.foldl_cons]
    have harr : n :: names = [n] ++ names := rfl
    rw [harr, ← List.append_assoc]
    cases hf : f n with
    | some v =>
      show List.foldl _ (replaceAll (renderPart ts f done) (ph n) v) names = _
      have e1 : replaceAll (renderPart ts f done) (ph n) v = renderPart ts f (done ++ [n]) := by
        unfold replaceAll
        rw [if_neg (by simp [ph])]
        exact renderPart_step f n v ts done hlit hcap hfv hn hf
      rw [e1]
      exact ih (done ++ [n]) hbn2
    | none =>
      show List.foldl _ (renderPart ts f done) names = _
      rw [ih done hbn2]
      apply renderPart_skip f n hf
      intro m hm
      simp only [List.mem_append, List.mem_singleton]
      constructor
      · intro h; rcases h with h | h
        · exact Or.inl (Or.inl h)
        · exact Or.inr h
      · intro h; rcases h with (h | h) | h
        · exact Or.inl h
        · exact absurd h hm
        · exact Or.inr h

theorem renderPart_nil_done (ts : List Tok) (f : Str → Option Str) :
    renderPart ts f [] = renderToks ts := by
  induction ts with
  | nil => simp [renderPart, renderToks]
  | cons t ts ih =>
    cases t with
    | lit l => simp only [renderPart, renderToks]; rw [ih]
    | cap n =>
      simp only [renderPart, renderToks, List.not_mem_nil, if_false, ph]
      rw [ih]
      simp

theorem renderPart_all_done (ts : List Tok) (f : Str → Option Str) (done : List Str)
    (h : ∀ m ∈ capNames ts, m ∈ done) : renderPart ts f done = substNamed ts f := by
  induction ts with
  | nil => simp [renderPart, substNamed]
  | cons t ts ih =>
    cases t with
    | lit l =>
      simp only [renderPart, substNamed]
      rw [ih (fun m hm => h m (by simpa [capNames] using hm))]
    | cap n =>
      have hn : n ∈ done := h n (by simp [capNames])
      simp only [renderPart, substNamed, if_pos hn]
      rw [ih (fun m hm => h m (by simp [capNames, hm]))]
      cases f n <;> simp [ph]

/-! Correctness of the two placeholder scanners on well-formed rendered templates. -/

theorem not_mem_of_contains_false {c : Char} {l : Str} (h : l.contains c = false) : c ∉ l := by
  intro hm
  rw [show l.contains c = l.elem c from rfl, List.elem_eq_true_of_mem hm] at h
  exact Bool.noConfusion h

theorem litOK_spec {l : Str} (h : litOK l = true) : l ≠ [] ∧ braceFree l := by
  simp only [litOK, Bool.and_eq_true, Bool.not_eq_true'] at h
  refine ⟨fun he => by simp [he] at h, not_mem_of_contains_false h.1.2,
    not_mem_of_contains_false h.2⟩

theorem nameOK_spec {n : Str} (h : nameOK n = true) : n ≠ [] ∧ braceFree n := by
  simp only [nameOK, Bool.and_eq_true, Bool.not_eq_true'] at h
  refine ⟨fun he => by simp [he] at h, not_mem_of_contains_false h.1.2,
    not_mem_of_contains_false h.2⟩

theorem toksWF_tail {t : Tok} {ts : List Tok} (h : toksWF (t :: ts) = true) :
    toksWF ts = true := by
  cases t with
  | cap n => simp only [toksWF, Bool.and_eq_true] at h; exact h.2
  | lit l =>
    cases ts with
    | nil => simp [toksWF]
    | cons t2 ts2 =>
      cases t2 with
      | lit l2 => simp [toksWF] at h
      | cap n2 =>
        simp only [toksWF, Bool.and_eq_true] at h
        simp only [toksWF, Bool.and_eq_true]
        exact h.2

theorem toksWF_lit {l : Str} {ts : List Tok} (h : toksWF (Tok.lit l :: ts) = true) :
    litOK l = true := by
  cases ts with
  | nil => simpa [toksWF] using h
  | cons t2 ts2 =>
    cases t2 with
    | lit l2 => simp [toksWF] at h
    | cap n2 => simp only [toksWF, Bool.and_eq_true] at h; exact h.1

theorem toksWF_cap {n : Str} {ts : List Tok} (h : toksWF (Tok.cap n :: ts) = true) :
    nameOK n = true := by
  simp only [toksWF, Bool.and_eq_true] at h; exact h.1

theorem toksWF_not_adjacent_lit {l l2 : Str} {ts : List Tok}
    (h : toksWF (Tok.lit l :: Tok.lit l2 :: ts) = true) : False := by
  simp [toksWF] at h

theorem extractNamesAux_lit {b : Str} (hb : '\x7b' ∉ b) (r : Str) :
    extractNamesAux none (b ++ r) = extractNamesAux none r := by
  induction b with
  | nil => simp
  | cons c b ih =>
    have hc : c ≠ '\x7b' := fun h => hb (h ▸ List.mem_cons_self c b)
    have hb2 : '\x7b' ∉ b := fun h => hb (List.mem_cons_of_mem c h)
    simp only [List.cons_append, extractNamesAux, if_neg hc]
    exact ih hb2

theorem extractNamesAux_name {n : Str} (hn : '\x7d' ∉ n) :
    ∀ (acc r : Str), extractNamesAux (some acc) (n ++ '\x7d' :: r)
      = (acc.reverse ++ n) :: extractNamesAux none r := by
  induction n with
  | nil => intro acc r; simp [extractNamesAux]
  | cons c n ih =>
    intro acc r
    have hc : c ≠ '\x7d' := fun h => hn (h ▸ List.mem_cons_self c n)
    have hn2 : '\x7d' ∉ n := fun h => hn (List.mem_cons_of_mem c h)
    have step : extractNamesAux (some acc) ((c :: n) ++ '\x7d' :: r)
        = extractNamesAux (some (c :: acc)) (n ++ '\x7d' :: r) := by
      simp [extractNamesAux, if_neg hc]
    rw [step, ih hn2 (c :: acc) r]
    simp

theorem extractPathParameterNames_render {ts : List Tok} (h : toksWF ts = true) :
    extractPathParameterNames (renderToks ts) = capNames ts := by
  induction ts with
  | nil => simp [extractPathParameterNames, extractNamesAux, renderToks, capNames]
  | cons t ts ih =>
    cases t with
    | lit l =>
      have hl := litOK_spec (toksWF_lit h)
      show extractNamesAux none (l ++ renderToks ts) = capNames ts
      rw [extractNamesAux_lit hl.2.1]
      exact ih (toksWF_tail h)
    | cap n =>
      have hn := nameOK_spec (toksWF_cap h)
      show extractNamesAux none ('\x7b' :: (n ++ '\x7d' :: renderToks ts)) = n :: capNames ts
      simp only [extractNamesAux, if_pos rfl]
      rw [extractNamesAux_name hn.2.2 [] (renderToks ts)]
      simp only [List.reverse_nil, List.nil_append]
      exact congrArg (n :: ·) (ih (toksWF_tail h))

theorem parseToksAux_lit {b : Str} (hb : '\x7b' ∉ b) (r : Str) :
    parseToksAux none (b ++ r) = b.foldr consLit (parseToksAux none r) := by
  induction b with
  | nil => simp
  | cons c b ih =>
    have hc : c ≠ '\x7b' := fun h => hb (h ▸ List.mem_cons_self c b)
    have hb2 : '\x7b' ∉ b := fun h => hb (List.mem_cons_of_mem c h)
    simp only [List.cons_append, parseToksAux, if_neg hc, List.foldr_cons]
    exact congrArg (consLit c) (ih hb2)

theorem foldr_consLit_eq {R : List Tok}
    (hR : R = [] ∨ ∃ n ts, R = Tok.cap n :: ts) :
    ∀ {l : Str}, l ≠ [] → l.foldr consLit R = Tok.lit l :: R := by
  intro l
  induction l with
  | nil => intro h; exact absurd rfl h
  | cons c l ih =>
    intro _
    cases l with
    | nil =>
      rcases hR with h | ⟨n, ts, h⟩ <;> subst h <;> simp [consLit]
    | cons c2 l2 =>
      rw [List.foldr_cons, ih (by simp)]
      simp [consLit]

theorem parseToksAux_name {n : Str} (hn : '\x7d' ∉ n) :
    ∀ (acc r : Str), acc.reverse ++ n ≠ [] →
      parseToksAux (some acc) (n ++ '\x7d' :: r)
        = Tok.cap (acc.reverse ++ n) :: parseToksAux none r := by
  induction n with
  | nil =>
    intro acc r hne
    have hacc : acc.isEmpty = false := by
      cases acc with
      | nil => simp at hne
      | cons a acc => simp
    simp [parseToksAux, hacc]
  | cons c n ih =>
    intro acc r _
    have hc : c ≠ '\x7d' := fun h => hn (h ▸ List.mem_cons_self c n)
    have hn2 : '\x7d' ∉ n := fun h => hn (List.mem_cons_of_mem c h)
    have step : parseToksAux (some acc) ((c :: n) ++ '\x7d' :: r)
        = parseToksAux (some (c :: acc)) (n ++ '\x7d' :: r) := by
      simp [parseToksAux, if_neg hc]
    rw [step, ih hn2 (c :: acc) r (by simp)]
    simp

theorem parseToks_render {ts : List Tok} (h : toksWF ts = true) :
    parseToks (renderToks ts) = ts := by
  induction ts with
  | nil => simp [parseToks, parseToksAux, renderToks]
  | cons t ts ih =>
    cases t with
    | lit l =>
      have hl := litOK_spec (toksWF_lit h)
      show parseToksAux none (l ++ renderToks ts) = Tok.lit l :: ts
      rw [parseToksAux_lit hl.2.1]
      have hrest : parseToksAux none (renderToks ts) = ts := ih (toksWF_tail h)
      rw [hrest]
      apply foldr_consLit_eq _ hl.1
      cases ts with
      | nil => exact Or.inl rfl
      | cons t2 ts2 =>
        cases t2 with
        | lit l2 => exact absurd h (by intro hh; exact toksWF_not_adjacent_lit hh)
        | cap n2 => exact Or.inr ⟨n2, ts2, rfl⟩
    | cap n =>
      have hn := nameOK_spec (toksWF_cap h)
      show parseToksAux none ('\x7b' :: (n ++ '\x7d' :: renderToks ts)) = Tok.cap n :: ts
      simp only [parseToksAux, if_pos rfl]
      rw [parseToksAux_name hn.2.2 [] (renderToks ts) (by simpa using hn.1)]
      simp only [List.reverse_nil, List.nil_append]
      exact congrArg (Tok.cap n :: ·) (ih (toksWF_tail h))

/-! Lemmas about the greedy anchored matcher. -/

theorem takeWhile_append_all {p : Char → Bool} {v : Str} (hv : ∀ c ∈ v, p c = true)
    (t : Str) : (v ++ t).takeWhile p = v ++ t.takeWhile p := by
  induction v with
  | nil => simp
  | cons c v ih =>
    have hc : p c = true := hv c (List.mem_cons_self _ _)
    have hv2 : ∀ c2 ∈ v, p c2 = true := fun c2 h => hv c2 (List.mem_cons_of_mem c h)
    simp [List.takeWhile, hc, ih hv2]

theorem matchToks_lit_append (l : Str) (ts : List Tok) (x : Str) :
    matchToks (Tok.lit l :: ts) (l ++ x) = matchToks ts x := by
  simp [matchToks, startsWith_append, List.drop_left]

theorem capTry_sound {m : Str → Option (List Str)} {s : Str} :
    ∀ {k : Nat} {r : List Str}, capTry m s k = some r →
      ∃ kk caps, 1 ≤ kk ∧ kk ≤ k ∧ m (s.drop kk) = some caps ∧ r = s.take kk :: caps := by
  intro k
  induction k with
  | zero => intro r h; simp [capTry] at h
  | succ k ih =>
    intro r h
    cases h2 : m (s.drop (k + 1)) with
    | some caps =>
      rw [capTry, h2] at h
      injection h with h5
      exact ⟨k + 1, caps, Nat.succ_le_succ (Nat.zero_le k), Nat.le_refl _, h2, h5.symm⟩
    | none =>
      rw [capTry, h2] at h
      obtain ⟨kk, caps, h1, h3, h4, h5⟩ := ih h
      exact ⟨kk, caps, h1, Nat.le_succ_of_le h3, h4, h5⟩

theorem mem_take_of_le_takeWhile {p : Char → Bool} {s : Str} {kk : Nat}
    (hk : kk ≤ (s.takeWhile p).length) : ∀ c ∈ s.take kk, p c = true := by
  intro c hc
  have hs : s.takeWhile p ++ s.dropWhile p = s := List.takeWhile_append_dropWhile p s
  have htk : s.take kk = (s.takeWhile p).take kk := by
    conv_lhs => rw [← hs]
    exact List.take_append_of_le_length hk
  rw [htk] at hc
  exact List.mem_takeWhile_imp (List.take_subset _ _ hc)

theorem takeWhile_length_le (p : Char → Bool) (s : Str) : (s.takeWhile p).length ≤ s.length := by
  induction s with
  | nil => simp
  | cons c s ih =>
    cases hp : p c
    · simp [List.takeWhile, hp]
    · simp only [List.takeWhile, hp, List.length_cons]
      exact Nat.succ_le_succ ih

theorem matchToks_sound :
    ∀ (ts : List Tok) (s : Str) (caps : List Str), matchToks ts s = some caps →
      TemplateMatch ts s caps := by
  intro ts
  induction ts with
  | nil =>
    intro s caps h
    cases s with
    | nil =>
      rw [matchToks] at h
      cases h
      exact TemplateMatch.nil
    | cons c s2 => simp [matchToks] at h
  | cons t ts ih =>
    intro s caps h
    cases t with
    | lit l =>
      by_cases hsw : startsWith l s = true
      · have hs := eq_append_drop_of_startsWith hsw
        rw [matchToks, if_pos hsw] at h
        have tm := ih _ _ h
        conv_lhs => rw [hs]
        exact TemplateMatch.lit l ts _ caps tm
      · rw [matchToks, if_neg hsw] at h
        exact Option.noConfusion h
    | cap n =>
      rw [matchToks] at h
      obtain ⟨kk, caps2, h1, h2, h3, h4⟩ := capTry_sound h
      have hkk : kk ≤ s.length :=
        Nat.le_trans h2 (takeWhile_length_le _ s)
      have hvne : s.take kk ≠ [] := by
        have : (s.take kk).length = kk := by
          rw [List.length_take]
          omega
        intro he
        rw [he] at this
        simp at this
        omega
      have hvch : ∀ c ∈ s.take kk, c ≠ '/' := by
        intro c hc
        have := mem_take_of_le_takeWhile h2 c hc
        simpa using this
      have tm := ih _ _ h3
      have hsplit : s = s.take kk ++ s.drop kk := (List.take_append_drop kk s).symm
      rw [h4]
      conv_lhs => rw [hsplit]
      exact TemplateMatch.cap n _ ts _ caps2 hvne hvch tm

theorem capTry_complete {m : Str → Option (List Str)} {s : Str} :
    ∀ {K kk : Nat}, 1 ≤ kk → kk ≤ K → (m (s.drop kk)).isSome = true →
      (capTry m s K).isSome = true := by
  intro K
  induction K with
  | zero => intro kk h1 h2 _; omega
  | succ K ih =>
    intro kk h1 h2 h3
    cases h4 : m (s.drop (K + 1)) with
    | some caps => rw [capTry, h4]; simp
    | none =>
      rw [capTry, h4]
      rcases Nat.lt_or_ge kk (K + 1) with hlt | hge
      · exact ih h1 (Nat.le_of_lt_succ hlt) h3
      · have : kk = K + 1 := Nat.le_antisymm h2 hge
        rw [this] at h3
        rw [h4] at h3
        simp at h3

theorem matchToks_complete :
    ∀ {ts : List Tok} {s : Str} {caps : List Str}, TemplateMatch ts s caps →
      (matchToks ts s).isSome = true := by
  intro ts s caps tm
  induction tm with
  | nil => simp [matchToks]
  | lit l ts s caps _ ih => rw [matchToks_lit_append]; exact ih
  | cap n v ts s caps hvne hvch _ ih =>
    rw [matchToks]
    have hall : ∀ c ∈ v, (fun c => decide (c ≠ '/')) c = true := by
      intro c hc
      simpa using hvch c hc
    have hK : v.length ≤ ((v ++ s).takeWhile (fun c => decide (c ≠ '/'))).length := by
      rw [takeWhile_append_all hall]
      simp
    have h1 : 1 ≤ v.length := by
      cases v with
      | nil => exact absurd rfl hvne
      | cons _ _ => simp
    have hdrop : (v ++ s).drop v.length = s := List.drop_left v s
    exact capTry_complete h1 hK (by rw [hdrop]; exact ih)

/-! Lemmas about the association-map embedding and extractPathParameters. -/

theorem mapAssign_fresh {α : Type} {m : List (Str × α)} {k : Str} (v : α)
    (h : k ∉ m.map Prod.fst) : mapAssign m k v = m ++ [(k, v)] := by
  induction m with
  | nil => simp [mapAssign]
  | cons kv m ih =>
    have h1 : kv.1 ≠ k := by
      intro he
      exact h (he ▸ List.mem_cons_self kv.1 (m.map Prod.fst))
    have h2 : k ∉ m.map Prod.fst := fun hm => h (List.mem_cons_of_mem kv.1 hm)
    cases kv with
    | mk k2 v2 =>
      simp only [mapAssign, if_neg h1]
      rw [ih h2]
      simp only [List.cons_append]

theorem foldl_mapAssign_eq {α : Type} :
    ∀ (pairs : List (Str × α)), (pairs.map Prod.fst).Pairwise (· ≠ ·) →
      ∀ acc : List (Str × α), (∀ k ∈ pairs.map Prod.fst, k ∉ acc.map Prod.fst) →
        pairs.foldl (fun m kv => mapAssign m kv.1 kv.2) acc = acc ++ pairs := by
  intro pairs
  induction pairs with
  | nil => intro _ acc _; simp
  | cons kv rest ih =>
    intro hpw acc hfresh
    simp only [List.map_cons, List.pairwise_cons] at hpw
    have hk : kv.1 ∉ acc.map Prod.fst :=
      hfresh kv.1 (List.mem_cons_self kv.1 (rest.map Prod.fst))
    simp only [List.foldl_cons]
    rw [mapAssign_fresh kv.2 hk]
    have hfresh2 : ∀ k ∈ rest.map Prod.fst, k ∉ (acc ++ [(kv.1, kv.2)]).map Prod.fst := by
      intro k hkr
      simp only [List.map_append, List.mem_append]
      intro hor
      rcases hor with h1 | h1
      · exact hfresh k (List.mem_cons_of_mem kv.1 hkr) h1
      · simp only [List.map_cons, List.map_nil, List.mem_singleton] at h1
        exact hpw.1 k hkr h1.symm
    rw [ih hpw.2 (acc ++ [(kv.1, kv.2)]) hfresh2]
    rw [List.append_assoc]
    rfl

theorem TemplateMatch_length :
    ∀ {ts : List Tok} {s : Str} {caps : List Str}, TemplateMatch ts s caps →
      caps.length = numCaps ts := by
  intro ts s caps tm
  induction tm with
  | nil => simp [numCaps, capNames]
  | lit l ts s caps _ ih => simpa [numCaps, capNames] using ih
  | cap n v ts s caps _ _ _ ih => simpa [numCaps, capNames] using ih

theorem matchToks_length {ts : List Tok} {s : Str} {caps : List Str}
    (h : matchToks ts s = some caps) : caps.length = numCaps ts :=
  TemplateMatch_length (matchToks_sound ts s caps h)

theorem plainLit_cons {c : Char} {l : Str} (h : plainLit (c :: l) = true) :
    regexMeta.contains c = false ∧ plainLit l = true := by
  simp only [plainLit, List.all_cons, Bool.and_eq_true, Bool.not_eq_true'] at h
  exact ⟨h.1, h.2⟩

theorem compileLit_plain {l : Str} (h : plainLit l = true) :
    compileLit l = some (l.map RTok.rlit) := by
  induction l with
  | nil => rfl
  | cons c rest ih =>
    obtain ⟨hc, hrest⟩ := plainLit_cons h
    have hdot : c ≠ '.' := by
      intro he
      rw [he] at hc
      exact absurd hc (by decide)
    have hc2 : ¬ (regexMeta.contains c = true) :=
      fun hcc => Bool.false_ne_true (hc.symm.trans hcc)
    simp only [compileLit, if_neg hdot, if_neg hc2, ih hrest, Option.map_some',
      List.map_cons]

theorem compileToks_plain {ts : List Tok} (h : plainToks ts = true) :
    compileToks ts = some (flatToks ts) := by
  induction ts with
  | nil => rfl
  | cons t ts ih =>
    simp only [plainToks, List.all_cons, Bool.and_eq_true] at h
    cases t with
    | lit l =>
      have hl : plainLit l = true := h.1
      simp only [compileToks, compileLit_plain hl, ih h.2, flatToks]
    | cap n =>
      simp only [compileToks, ih h.2, Option.map_some', flatToks]

theorem capTry_congr {m m2 : Str → Option (List Str)} (h : ∀ s, m s = m2 s) (s : Str) :
    ∀ k, capTry m s k = capTry m2 s k := by
  intro k
  induction k with
  | zero => rfl
  | succ k ih =>
    simp only [capTry]
    rw [h (s.drop (k + 1))]
    cases m2 (s.drop (k + 1)) with
    | some caps => rfl
    | none => exact ih

theorem matchR_lit_chars (l : Str) (rs : List RTok) :
    ∀ s, matchR (l.map RTok.rlit ++ rs) s
      = if startsWith l s then matchR rs (s.drop l.length) else none := by
  induction l with
  | nil => intro s; simp [startsWith]
  | cons c l ih =>
    intro s
    cases s with
    | nil => simp [matchR, startsWith]
    | cons d s =>
      by_cases hcd : c = d
      · simp [matchR, startsWith, hcd, ih s]
      · simp [matchR, startsWith, hcd]

theorem matchR_flat : ∀ (ts : List Tok), plainToks ts = true →
    ∀ s, matchR (flatToks ts) s = matchToks ts s := by
  intro ts
  induction ts with
  | nil =>
    intro _ s
    cases s <;> rfl
  | cons t ts ih =>
    intro h s
    simp only [plainToks, List.all_cons, Bool.and_eq_true] at h
    cases t with
    | lit l =>
      simp only [flatToks, matchToks]
      rw [matchR_lit_chars]
      by_cases hsw : startsWith l s = true
      · rw [if_pos hsw, if_pos hsw, ih h.2]
      · rw [if_neg hsw, if_neg hsw]
    | cap n =>
      simp only [flatToks, matchToks, matchR]
      exact capTry_congr (fun s2 => ih h.2 s2) s _

theorem extractPathParameters_eq_zip {tmpl : Str} {ts : List Tok}
    (hts : tmpl = renderToks ts) (hwf : toksWF ts = true)
    (hpl : plainToks ts = true)
    (hdis : (capNames ts).Pairwise (· ≠ ·))
    {key : Str} {caps : List Str} (hm : matchToks ts (normKey key) = some caps) :
    extractPathParameters key tmpl = (capNames ts).zip caps := by
  have hparse : parseToks tmpl = ts := by rw [hts]; exact parseToks_render hwf
  have hlen : caps.length = numCaps ts := matchToks_length hm
  have hmr : matchR (flatToks ts) (normKey key) = some caps := by
    rw [matchR_flat ts hpl]; exact hm
  show (let resourcePath := normKey key
        let ts2 := parseToks tmpl
        let paramNames := capNames ts2
        if paramNames.length > 0 then
          match compileToks ts2 with
          | none => []
          | some rs =>
            match matchR rs resourcePath with
            | some caps =>
              (paramNames.zip caps).foldl (fun m kv => mapAssign m kv.1 kv.2) []
            | none => []
        else []) = (capNames ts).zip caps
  simp only [hparse, compileToks_plain hpl]
  by_cases hn : (capNames ts).length > 0
  · rw [if_pos hn, hmr]
    have hkeys : ((capNames ts).zip caps).map Prod.fst = capNames ts :=
      List.map_fst_zip _ _ (by rw [hlen]; exact Nat.le_of_eq rfl)
    have := foldl_mapAssign_eq ((capNames ts).zip caps) (by rw [hkeys]; exact hdis)
      [] (by simp)
    simpa using this
  · rw [if_neg hn]
    have h0 : capNames ts = [] := List.length_eq_zero.1 (by omega)
    have h1 : caps = [] := by
      have : caps.length = 0 := by rw [hlen, numCaps, h0]; rfl
      exact List.length_eq_zero.1 this
    simp [h0, h1]

theorem extractPathParameters_no_match {tmpl : Str} {ts : List Tok}
    (hts : tmpl = renderToks ts) (hwf : toksWF ts = true)
    (hpl : plainToks ts = true)
    {key : Str} (hm : matchToks ts (normKey key) = none) :
    extractPathParameters key tmpl = [] := by
  have hparse : parseToks tmpl = ts := by rw [hts]; exact parseToks_render hwf
  have hmr : matchR (flatToks ts) (normKey key) = none := by
    rw [matchR_flat ts hpl]; exact hm
  show (let resourcePath := normKey key
        let ts2 := parseToks tmpl
        let paramNames := capNames ts2
        if paramNames.length > 0 then
          match compileToks ts2 with
          | none => []
          | some rs =>
            match matchR rs resourcePath with
            | some caps =>
              (paramNames.zip caps).foldl (fun m kv => mapAssign m kv.1 kv.2) []
            | none => []
        else []) = []
  simp only [hparse, compileToks_plain hpl]
  by_cases hn : (capNames ts).length > 0
  · rw [if_pos hn, hmr]
  · rw [if_neg hn]

/-! Helper lemmas towards the BuildAPIURLWithParams equation. -/

theorem mapLookup_mem {α : Type} :
    ∀ {m : List (Str × α)} {k : Str} {v : α}, mapLookup m k = some v → (k, v) ∈ m := by
  intro m
  induction m with
  | nil => intro k v h; simp [mapLookup] at h
  | cons kv m ih =>
    intro k v h
    by_cases he : kv.1 = k
    · rw [mapLookup, if_pos he] at h
      injection h with h2
      cases kv with
      | mk a b =>
        subst he
        subst h2
        exact List.mem_cons_self _ _
    · rw [mapLookup, if_neg he] at h
      exact List.mem_cons_of_mem kv (ih h)

theorem mapLookup_filter_key {α : Type} (q : Str → Bool) :
    ∀ (m : List (Str × α)) (k : Str),
      mapLookup (m.filter (fun kv => q kv.1)) k = if q k then mapLookup m k else none := by
  intro m
  induction m with
  | nil => intro k; simp [mapLookup]
  | cons kv m ih =>
    intro k
    by_cases hq : q kv.1
    · rw [List.filter_cons_of_pos (by simpa using hq)]
      by_cases he : kv.1 = k
      · rw [mapLookup, if_pos he, ← he, if_pos hq, mapLookup, if_pos rfl]
      · rw [mapLookup, if_neg he, ih k]
        by_cases hk : q k
        · rw [if_pos hk, if_pos hk, mapLookup, if_neg he]
        · rw [if_neg hk, if_neg hk]
    · rw [List.filter_cons_of_neg (by simpa using hq)]
      rw [ih k]
      by_cases he : kv.1 = k
      · rw [← he, if_neg (by simpa using hq), if_neg (by simpa using hq)]
      · by_cases hk : q k
        · rw [if_pos hk, if_pos hk, mapLookup, if_neg he]
        · rw [if_neg hk, if_neg hk]

theorem substNamed_congr {ts : List Tok} {f g : Str → Option Str}
    (h : ∀ n ∈ capNames ts, f n = g n) : substNamed ts f = substNamed ts g := by
  induction ts with
  | nil => simp [substNamed]
  | cons t ts ih =>
    cases t with
    | lit l =>
      simp only [substNamed]
      rw [ih (fun n hn => h n (by simpa [capNames] using hn))]
    | cap n =>
      simp only [substNamed]
      rw [h n (by simp [capNames]), ih (fun m hm => h m (by simp [capNames, hm]))]

theorem substNamed_no_caps {ts : List Tok} (h : capNames ts = []) (f : Str → Option Str) :
    substNamed ts f = renderToks ts := by
  induction ts with
  | nil => simp [substNamed, renderToks]
  | cons t ts ih =>
    cases t with
    | lit l =>
      simp only [substNamed, renderToks]
      rw [ih (by simpa [capNames] using h)]
    | cap n => simp [capNames] at h

theorem mem_capNames {n : Str} : ∀ {ts : List Tok}, n ∈ capNames ts ↔ Tok.cap n ∈ ts := by
  intro ts
  induction ts with
  | nil => simp [capNames]
  | cons t ts ih =>
    cases t with
    | lit l => simp [capNames, ih]
    | cap m => simp [capNames, ih]

theorem toksWF_mem_cap : ∀ {ts : List Tok}, toksWF ts = true → ∀ {n : Str},
    Tok.cap n ∈ ts → nameOK n = true := by
  intro ts
  induction ts with
  | nil => intro _ n h; simp at h
  | cons t ts ih =>
    intro hwf n h
    rcases List.mem_cons.1 h with h1 | h1
    · rw [← h1] at hwf
      exact toksWF_cap hwf
    · exact ih (toksWF_tail hwf) h1

theorem toksWF_mem_lit : ∀ {ts : List Tok}, toksWF ts = true → ∀ {l : Str},
    Tok.lit l ∈ ts → litOK l = true := by
  intro ts
  induction ts with
  | nil => intro _ l h; simp at h
  | cons t ts ih =>
    intro hwf l h
    rcases List.mem_cons.1 h with h1 | h1
    · rw [← h1] at hwf
      exact toksWF_lit hwf
    · exact ih (toksWF_tail hwf) h1

theorem render_mem_brace {n : Str} : ∀ {ts : List Tok}, n ∈ capNames ts →
    '\x7b' ∈ renderToks ts ∧ '\x7d' ∈ renderToks ts := by
  intro ts
  induction ts with
  | nil => intro h; simp [capNames] at h
  | cons t ts ih =>
    intro h
    cases t with
    | lit l =>
      have h2 := ih (by simpa [capNames] using h)
      constructor
      · simpa [renderToks] using Or.inr h2.1
      · simpa [renderToks] using Or.inr h2.2
    | cap m =>
      constructor
      · simp [renderToks]
      · simp [renderToks]

theorem hasPathParameters_of_cap {ts : List Tok} {n : Str} (h : n ∈ capNames ts) :
    HasPathParameters (renderToks ts) = true := by
  have h2 := render_mem_brace h
  simp only [HasPathParameters, Bool.and_eq_true]
  exact ⟨List.elem_eq_true_of_mem h2.1, List.elem_eq_true_of_mem h2.2⟩

theorem queryParts_fusion (names : List Str) :
    ∀ params : List (Str × Str),
      (params.filter (fun kv => decide (kv.1 ≠ rURI) && !names.contains kv.1)).filterMap
        (fun kv => if kv.2.isEmpty then none else some (kv.1 ++ '=' :: queryEscape kv.2))
      = queryItems params names := by
  intro params
  induction params with
  | nil => simp [queryItems]
  | cons kv params ih =>
    by_cases h1 : kv.1 = rURI
    · rw [List.filter_cons_of_neg (by simp [h1])]
      rw [ih]
      show _ = queryItems (kv :: params) names
      simp only [queryItems, List.filterMap_cons]
      rw [if_pos (Or.inl h1)]
    · by_cases h2 : names.contains kv.1
      · have hm : kv.1 ∈ names := List.mem_of_elem_eq_true h2
        rw [List.filter_cons_of_neg (by simp [h1, hm])]
        rw [ih]
        show _ = queryItems (kv :: params) names
        simp only [queryItems, List.filterMap_cons]
        rw [if_pos (Or.inr (Or.inl h2))]
      · have hm : kv.1 ∉ names := fun hmem => h2 (List.elem_eq_true_of_mem hmem)
        rw [List.filter_cons_of_pos (by simp [h1, hm])]
        by_cases h3 : kv.2 = []
        · rw [List.filterMap_cons_none (by simp [h3])]
          rw [ih]
          show _ = queryItems (kv :: params) names
          simp only [queryItems, List.filterMap_cons]
          rw [if_pos (Or.inr (Or.inr h3))]
        · have hif : (if List.isEmpty kv.2 = true then none
              else some (kv.1 ++ '=' :: queryEscape kv.2))
              = some (kv.1 ++ '=' :: queryEscape kv.2) := by
            simp [h3]
          simp only [List.filterMap_cons, hif]
          rw [ih]
          show _ = queryItems (kv :: params) names
          simp only [queryItems, List.filterMap_cons]
          rw [if_neg (by push_neg; exact ⟨h1, by simpa using h2, h3⟩)]

/-- Central equation of the named-argument URL builder: on a well-formed
template whose placeholders avoid the reserved key, and brace-free argument
values, the output is the base URL, the template with each placeholder
substituted once by its named argument, and the percent-encoded query suffix
of the remaining arguments. -/
theorem buildWithParams_eq (registryURL : Str) (model : Option ModelInfo)
    (params : List (Str × Str)) {tmpl : Str} {ts : List Tok}
    (hts : tmpl = renderToks ts) (hwf : toksWF ts = true)
    (hnoru : rURI ∉ capNames ts)
    (hvals : ∀ kv ∈ params, braceFree kv.2) :
    BuildAPIURLWithParams registryURL model tmpl params
      = dropTrailing '/' (baseOf registryURL model)
        ++ substNamed ts (lookupArg params)
        ++ querySuffixOf params (capNames ts) := by
  have hnames : extractPathParameterNames tmpl = capNames ts := by
    rw [hts]; exact extractPathParameterNames_render hwf
  have hunfold : BuildAPIURLWithParams registryURL model tmpl params =
      (if ((params.filter (fun kv => decide (kv.1 ≠ rURI)
            && !(extractPathParameterNames tmpl).contains kv.1)).filterMap (fun kv =>
            if kv.2.isEmpty then none
            else some (kv.1 ++ '=' :: queryEscape kv.2))).isEmpty then
        dropTrailing '/' (baseOf registryURL model)
          ++ (if HasPathParameters tmpl then
                (extractPathParameterNames tmpl).foldl (fun fp n =>
                  match mapLookup (params.filter (fun kv => decide (kv.1 ≠ rURI)
                      && (extractPathParameterNames tmpl).contains kv.1)) n with
                  | some v => replaceAll fp (ph n) v
                  | none => fp) tmpl
              else tmpl)
      else
        dropTrailing '/' (baseOf registryURL model)
          ++ (if HasPathParameters tmpl then
                (extractPathParameterNames tmpl).foldl (fun fp n =>
                  match mapLookup (params.filter (fun kv => decide (kv.1 ≠ rURI)
                      && (extractPathParameterNames tmpl).contains kv.1)) n with
                  | some v => replaceAll fp (ph n) v
                  | none => fp) tmpl
              else tmpl)
          ++ '?' :: List.intercalate ['&']
              ((params.filter (fun kv => decide (kv.1 ≠ rURI)
                && !(extractPathParameterNames tmpl).contains kv.1)).filterMap (fun kv =>
                if kv.2.isEmpty then none
                else some (kv.1 ++ '=' :: queryEscape kv.2)))) := rfl
  rw [hunfold, hnames]
  rw [queryParts_fusion (capNames ts) params]
  have hfinal : (if HasPathParameters tmpl then
      (capNames ts).foldl (fun fp n =>
        match mapLookup (params.filter (fun kv => decide (kv.1 ≠ rURI)
            && (capNames ts).contains kv.1)) n with
        | some v => replaceAll fp (ph n) v
        | none => fp) tmpl
    else tmpl) = substNamed ts (lookupArg params) := by
    have hflit : ∀ l, Tok.lit l ∈ ts → braceFree l :=
      fun l h => (litOK_spec (toksWF_mem_lit hwf h)).2
    have hfcap : ∀ m, Tok.cap m ∈ ts → braceFree m :=
      fun m h => (nameOK_spec (toksWF_mem_cap hwf h)).2
    have hfv : ∀ m w, (fun n => mapLookup (params.filter (fun kv => decide (kv.1 ≠ rURI)
        && (capNames ts).contains kv.1)) n) m = some w → braceFree w := by
      intro m w hm
      have hmem := mapLookup_mem hm
      have hmem2 : (m, w) ∈ params := (List.mem_filter.1 hmem).1
      exact hvals (m, w) hmem2
    have hcongr : ∀ n ∈ capNames ts,
        (fun n => mapLookup (params.filter (fun kv => decide (kv.1 ≠ rURI)
          && (capNames ts).contains kv.1)) n) n = lookupArg params n := by
      intro n hn
      have hq : (fun x => decide (x ≠ rURI) && (capNames ts).contains x) n = true := by
        have h1 : n ≠ rURI := fun he => hnoru (he ▸ hn)
        simp [h1, hn]
      show mapLookup (params.filter (fun kv => (fun x => decide (x ≠ rURI)
          && (capNames ts).contains x) kv.1)) n = lookupArg params n
      rw [mapLookup_filter_key (fun x => decide (x ≠ rURI) && (capNames ts).contains x)
        params n, if_pos hq]
      have h1 : n ≠ rURI := fun he => hnoru (he ▸ hn)
      rw [lookupArg, if_neg h1]
    by_cases hc : capNames ts = []
    · have hsub : substNamed ts (lookupArg params) = renderToks ts :=
        substNamed_no_caps hc (lookupArg params)
      rw [hsub, ← hts, hc]
      by_cases hpp : HasPathParameters tmpl = true
      · rw [if_pos hpp]; simp
      · rw [if_neg hpp]
    · obtain ⟨n0, hn0⟩ := List.exists_mem_of_ne_nil _ hc
      have hpp : HasPathParameters tmpl = true := by
        rw [hts]; exact hasPathParameters_of_cap hn0
      rw [if_pos hpp]
      have hbn : ∀ n ∈ capNames ts, braceFree n :=
        fun n hn => hfcap n (mem_capNames.1 hn)
      have hfold := renderPart_fold ts (fun n => mapLookup (params.filter
        (fun kv => decide (kv.1 ≠ rURI) && (capNames ts).contains kv.1)) n)
        hflit hfcap hfv (capNames ts) [] hbn
      rw [renderPart_nil_done, ← hts] at hfold
      rw [hfold, List.nil_append]
      rw [renderPart_all_done ts _ (capNames ts) (fun m hm => hm)]
      exact substNamed_congr hcongr
  rw [hfinal]
  show (if (queryItems params (capNames ts)).isEmpty then
      dropTrailing '/' (baseOf registryURL model) ++ substNamed ts (lookupArg params)
    else dropTrailing '/' (baseOf registryURL model) ++ substNamed ts (lookupArg params)
      ++ '?' :: List.intercalate ['&'] (queryItems params (capNames ts))) = _
  rw [querySuffixOf]
  by_cases hq : (queryItems params (capNames ts)).isEmpty
  · rw [if_pos hq, if_pos hq, List.append_nil]
  · rw [if_neg hq, if_neg hq]

/-! Character membership lemmas for the brace-freeness and no-question-mark conjuncts. -/

theorem mem_dropTrailing {c x : Char} {s : Str} (h : c ∈ dropTrailing x s) : c ∈ s := by
  have h1 : c ∈ s.reverse.dropWhile (· = x) := by
    simpa [dropTrailing] using h
  have h2 : c ∈ s.reverse := (List.dropWhile_sublist _).subset h1
  simpa using h2

theorem mem_dropLeading {c x : Char} {s : Str} (h : c ∈ dropLeading x s) : c ∈ s :=
  (List.dropWhile_sublist _).subset h

theorem mem_baseOf {c : Char} {registryURL : Str} {model : Option ModelInfo}
    (h : c ∈ baseOf registryURL model) :
    c ∈ registryURL ∨ (∃ mi, model = some mi ∧ c ∈ mi.basePath) ∨ c = '/' := by
  cases model with
  | none => exact Or.inl (by simpa [baseOf] using h)
  | some mi =>
    by_cases hbp : mi.basePath.isEmpty
    · rw [baseOf, if_pos hbp] at h
      exact Or.inl h
    · rw [baseOf, if_neg hbp] at h
      rcases List.mem_append.1 h with h1 | h1
      · exact Or.inl (mem_dropTrailing h1)
      · rcases List.mem_cons.1 h1 with h2 | h2
        · exact Or.inr (Or.inr h2)
        · exact Or.inr (Or.inl ⟨mi, rfl, mem_dropLeading h2⟩)

theorem isUnreserved_ne {c d : Char} (h : isUnreserved c = true)
    (hd : isUnreserved d = false) : c ≠ d := by
  intro he
  rw [he, hd] at h
  exact Bool.noConfusion h

theorem hexDigit_mem_of_lt {k : Nat} (hk : k < 16) :
    hexDigit k ∈ strL "0123456789ABCDEF" := by
  interval_cases k <;> decide

theorem mem_queryEscape {c : Char} {v : Str} (h : c ∈ queryEscape v) :
    (∃ c0 ∈ v, c = c0 ∧ isUnreserved c0 = true) ∨ c = '+' ∨ c = '%' ∨
      (∃ c0 ∈ v, c = hexDigit (c0.toNat / 16) ∨ c = hexDigit (c0.toNat % 16)) := by
  rw [queryEscape] at h
  rw [List.mem_flatten] at h
  obtain ⟨piece, hp, hc⟩ := h
  rw [List.mem_map] at hp
  obtain ⟨c0, hc0, hpe⟩ := hp
  by_cases hu : isUnreserved c0 = true
  · rw [if_pos hu] at hpe
    rw [← hpe] at hc
    rcases List.mem_singleton.1 hc with h2
    exact Or.inl ⟨c0, hc0, h2, hu⟩
  · rw [if_neg hu] at hpe
    rw [← hpe] at hc
    by_cases hsp : c0 = ' '
    · rw [escapeChar, if_pos hsp] at hc
      exact Or.inr (Or.inl (List.mem_singleton.1 hc))
    · rw [escapeChar, if_neg hsp] at hc
      rcases List.mem_cons.1 hc with h2 | h2
      · exact Or.inr (Or.inr (Or.inl h2))
      · rcases List.mem_cons.1 h2 with h3 | h3
        · exact Or.inr (Or.inr (Or.inr ⟨c0, hc0, Or.inl h3⟩))
        · rcases List.mem_cons.1 h3 with h4 | h4
          · exact Or.inr (Or.inr (Or.inr ⟨c0, hc0, Or.inr h4⟩))
          · simp at h4

theorem queryEscape_no_special {v : Str} (hascii : ∀ c0 ∈ v, c0.toNat < 128) :
    ∀ c ∈ queryEscape v, c ≠ '\x7b' ∧ c ≠ '\x7d' ∧ c ≠ '?' ∧ c ≠ '/' := by
  intro c hc
  rcases mem_queryEscape hc with ⟨c0, _, he, hu⟩ | h | h | ⟨c0, hc0, hk⟩
  · subst he
    exact ⟨isUnreserved_ne hu (by decide), isUnreserved_ne hu (by decide),
      isUnreserved_ne hu (by decide), isUnreserved_ne hu (by decide)⟩
  · subst h; exact ⟨by decide, by decide, by decide, by decide⟩
  · subst h; exact ⟨by decide, by decide, by decide, by decide⟩
  · have hlt : c0.toNat < 128 := hascii c0 hc0
    have hmem : c ∈ strL "0123456789ABCDEF" := by
      rcases hk with h | h <;> subst h <;> apply hexDigit_mem_of_lt <;> omega
    have hall : ∀ d ∈ strL "0123456789ABCDEF",
        d ≠ '\x7b' ∧ d ≠ '\x7d' ∧ d ≠ '?' ∧ d ≠ '/' := by decide
    exact hall c hmem

theorem mem_substNamed {c : Char} {f : Str → Option Str} :
    ∀ {ts : List Tok}, c ∈ substNamed ts f →
      (∃ l, Tok.lit l ∈ ts ∧ c ∈ l) ∨ (∃ n v, f n = some v ∧ c ∈ v) ∨
      (∃ n, Tok.cap n ∈ ts ∧ f n = none ∧ (c = '\x7b' ∨ c = '\x7d' ∨ c ∈ n)) := by
  intro ts
  induction ts with
  | nil => intro h; simp [substNamed] at h
  | cons t ts ih =>
    intro h
    cases t with
    | lit l =>
      rw [substNamed] at h
      rcases List.mem_append.1 h with h1 | h1
      · exact Or.inl ⟨l, List.mem_cons_self _ _, h1⟩
      · rcases ih h1 with ⟨l2, hl2, hc⟩ | h2 | ⟨n, hn, hc⟩
        · exact Or.inl ⟨l2, List.mem_cons_of_mem _ hl2, hc⟩
        · exact Or.inr (Or.inl h2)
        · exact Or.inr (Or.inr ⟨n, List.mem_cons_of_mem _ hn, hc⟩)
    | cap n =>
      rw [substNamed] at h
      rcases List.mem_append.1 h with h1 | h1
      · cases hf : f n with
        | some v =>
          rw [hf] at h1
          exact Or.inr (Or.inl ⟨n, v, hf, h1⟩)
        | none =>
          rw [hf] at h1
          rcases List.mem_cons.1 h1 with h2 | h2
          · exact Or.inr (Or.inr ⟨n, List.mem_cons_self _ _, hf, Or.inl h2⟩)
          · rcases List.mem_append.1 h2 with h3 | h3
            · exact Or.inr (Or.inr ⟨n, List.mem_cons_self _ _, hf, Or.inr (Or.inr h3)⟩)
            · rcases List.mem_singleton.1 h3 with h4
              exact Or.inr (Or.inr ⟨n, List.mem_cons_self _ _, hf, Or.inr (Or.inl h4)⟩)
      · rcases ih h1 with ⟨l2, hl2, hc⟩ | h2 | ⟨n2, hn2, hc⟩
        · exact Or.inl ⟨l2, List.mem_cons_of_mem _ hl2, hc⟩
        · exact Or.inr (Or.inl h2)
        · exact Or.inr (Or.inr ⟨n2, List.mem_cons_of_mem _ hn2, hc⟩)

theorem render_chars_lit {c : Char} {l : Str} :
    ∀ {ts : List Tok}, Tok.lit l ∈ ts → c ∈ l → c ∈ renderToks ts := by
  intro ts
  induction ts with
  | nil => intro h _; simp at h
  | cons t ts ih =>
    intro hmem hc
    rcases List.mem_cons.1 hmem with h1 | h1
    · rw [← h1, renderToks]
      exact List.mem_append_left _ hc
    · cases t with
      | lit l2 => rw [renderToks]; exact List.mem_append_right _ (ih h1 hc)
      | cap n =>
        rw [renderToks]
        refine List.mem_cons_of_mem _ ?_
        exact List.mem_append_right _ (List.mem_cons_of_mem _ (ih h1 hc))

theorem render_chars_cap {c : Char} {n : Str} :
    ∀ {ts : List Tok}, Tok.cap n ∈ ts → c ∈ n → c ∈ renderToks ts := by
  intro ts
  induction ts with
  | nil => intro h _; simp at h
  | cons t ts ih =>
    intro hmem hc
    rcases List.mem_cons.1 hmem with h1 | h1
    · rw [← h1, renderToks]
      exact List.mem_cons_of_mem _ (List.mem_append_left _ hc)
    · cases t with
      | lit l2 => rw [renderToks]; exact List.mem_append_right _ (ih h1 hc)
      | cap n2 =>
        rw [renderToks]
        refine List.mem_cons_of_mem _ ?_
        exact List.mem_append_right _ (List.mem_cons_of_mem _ (ih h1 hc))

theorem intercalate_amp_nil : List.intercalate ['&'] ([] : List Str) = [] := by
  simp [List.intercalate, List.intersperse]

theorem intercalate_amp_single (a : Str) : List.intercalate ['&'] [a] = a := by
  simp [List.intercalate, List.intersperse]

theorem intercalate_amp_cons2 (a b : Str) (t : List Str) :
    List.intercalate ['&'] (a :: b :: t) = a ++ '&' :: List.intercalate ['&'] (b :: t) := by
  simp [List.intercalate, List.intersperse]

theorem mem_intercalate_amp {c : Char} :
    ∀ {items : List Str}, c ∈ List.intercalate ['&'] items →
      c = '&' ∨ ∃ it ∈ items, c ∈ it := by
  intro items
  induction items with
  | nil => intro h; rw [intercalate_amp_nil] at h; simp at h
  | cons it items ih =>
    intro h
    cases items with
    | nil =>
      rw [intercalate_amp_single] at h
      exact Or.inr ⟨it, List.mem_cons_self _ _, h⟩
    | cons it2 items2 =>
      rw [intercalate_amp_cons2] at h
      rcases List.mem_append.1 h with h1 | h1
      · exact Or.inr ⟨it, List.mem_cons_self _ _, h1⟩
      · rcases List.mem_cons.1 h1 with h2 | h2
        · exact Or.inl h2
        · rcases ih h2 with h3 | ⟨it3, hit3, hc3⟩
          · exact Or.inl h3
          · exact Or.inr ⟨it3, List.mem_cons_of_mem _ hit3, hc3⟩

theorem intercalate_amp_split {it : Str} :
    ∀ {items : List Str}, it ∈ items →
      ∃ A B : Str, List.intercalate ['&'] items = A ++ (it ++ B) := by
  intro items
  induction items with
  | nil => intro h; simp at h
  | cons a items ih =>
    intro h
    cases items with
    | nil =>
      rcases List.mem_singleton.1 h with h1
      subst h1
      exact ⟨[], [], by rw [intercalate_amp_single]; simp⟩
    | cons b items2 =>
      rw [intercalate_amp_cons2]
      rcases List.mem_cons.1 h with h1 | h1
      · subst h1
        exact ⟨[], '&' :: List.intercalate ['&'] (b :: items2), by simp⟩
      · obtain ⟨A, B, hAB⟩ := ih h1
        exact ⟨a ++ '&' :: A, B, by rw [hAB]; simp⟩

theorem lookupArg_some {params : List (Str × Str)} {n v : Str}
    (h : lookupArg params n = some v) : mapLookup params n = some v ∧ n ≠ rURI := by
  by_cases he : n = rURI
  · rw [lookupArg, if_pos he] at h
    exact Option.noConfusion h
  · rw [lookupArg, if_neg he] at h
    exact ⟨h, he⟩

theorem queryItems_nil_of {params : List (Str × Str)} {names : List Str}
    (h : ∀ kv ∈ params, kv.1 = rURI ∨ kv.1 ∈ names ∨ kv.2 = []) :
    queryItems params names = [] := by
  rw [queryItems]
  induction params with
  | nil => simp
  | cons kv params ih =>
    rw [List.filterMap_cons_none]
    · exact ih (fun kv2 h2 => h kv2 (List.mem_cons_of_mem kv h2))
    · rcases h kv (List.mem_cons_self _ _) with h1 | h1 | h1
      · rw [if_pos (Or.inl h1)]
      · rw [if_pos (Or.inr (Or.inl (List.elem_eq_true_of_mem h1)))]
      · rw [if_pos (Or.inr (Or.inr h1))]

theorem mem_queryItems {it : Str} {params : List (Str × Str)} {names : List Str}
    (h : it ∈ queryItems params names) :
    ∃ kv ∈ params, it = kv.1 ++ '=' :: queryEscape kv.2 := by
  rw [queryItems] at h
  obtain ⟨kv, hkv, he⟩ := List.mem_filterMap.1 h
  by_cases hc : kv.1 = rURI ∨ names.contains kv.1 = true ∨ kv.2 = []
  · rw [if_pos hc] at he
    exact Option.noConfusion he
  · rw [if_neg hc] at he
    injection he with he2
    exact ⟨kv, hkv, he2.symm⟩

/-- Decomposition of every character of the built URL into its origin. -/
theorem mem_build_output {c : Char} {registryURL : Str} {model : Option ModelInfo}
    {params : List (Str × Str)} {ts : List Tok}
    (h : c ∈ dropTrailing '/' (baseOf registryURL model)
      ++ substNamed ts (lookupArg params) ++ querySuffixOf params (capNames ts)) :
    c ∈ registryURL ∨ (∃ mi, model = some mi ∧ c ∈ mi.basePath) ∨ c = '/'
    ∨ (∃ l, Tok.lit l ∈ ts ∧ c ∈ l)
    ∨ (∃ n v, lookupArg params n = some v ∧ c ∈ v)
    ∨ (∃ n, Tok.cap n ∈ ts ∧ lookupArg params n = none ∧ (c = '\x7b' ∨ c = '\x7d' ∨ c ∈ n))
    ∨ ((c = '?' ∨ c = '&' ∨ c = '=') ∧ queryItems params (capNames ts) ≠ [])
    ∨ ((∃ kv, kv ∈ params ∧ c ∈ kv.1) ∧ queryItems params (capNames ts) ≠ [])
    ∨ ((∃ kv, kv ∈ params ∧ c ∈ queryEscape kv.2) ∧ queryItems params (capNames ts) ≠ []) := by
  rcases List.mem_append.1 h with h1 | h1
  · rcases List.mem_append.1 h1 with h2 | h2
    · rcases mem_baseOf (mem_dropTrailing h2) with h3 | h3 | h3
      · exact Or.inl h3
      · exact Or.inr (Or.inl h3)
      · exact Or.inr (Or.inr (Or.inl h3))
    · rcases mem_substNamed h2 with h3 | h3 | h3
      · exact Or.inr (Or.inr (Or.inr (Or.inl h3)))
      · exact Or.inr (Or.inr (Or.inr (Or.inr (Or.inl h3))))
      · exact Or.inr (Or.inr (Or.inr (Or.inr (Or.inr (Or.inl h3)))))
  · by_cases hq : (queryItems params (capNames ts)).isEmpty
    · rw [querySuffixOf, if_pos hq] at h1
      simp at h1
    · rw [querySuffixOf, if_neg hq] at h1
      have hne : queryItems params (capNames ts) ≠ [] := by
        intro he; rw [he] at hq; simp at hq
      rcases List.mem_cons.1 h1 with h2 | h2
      · exact Or.inr (Or.inr (Or.inr (Or.inr (Or.inr (Or.inr (Or.inl ⟨Or.inl h2, hne⟩))))))
      · rcases mem_intercalate_amp h2 with h3 | ⟨it, hit, hc3⟩
        · exact Or.inr (Or.inr (Or.inr (Or.inr (Or.inr (Or.inr (Or.inl
            ⟨Or.inr (Or.inl h3), hne⟩))))))
        · obtain ⟨kv, hkv, hite⟩ := mem_queryItems hit
          rw [hite] at hc3
          rcases List.mem_append.1 hc3 with h4 | h4
          · exact Or.inr (Or.inr (Or.inr (Or.inr (Or.inr (Or.inr (Or.inr (Or.inl
              ⟨⟨kv, hkv, h4⟩, hne⟩)))))))
          · rcases List.mem_cons.1 h4 with h5 | h5
            · exact Or.inr (Or.inr (Or.inr (Or.inr (Or.inr (Or.inr (Or.inl
                ⟨Or.inr (Or.inr h5), hne⟩))))))
            · exact Or.inr (Or.inr (Or.inr (Or.inr (Or.inr (Or.inr (Or.inr (Or.inr
                ⟨⟨kv, hkv, h5⟩, hne⟩)))))))

/-- C1 (amended) — for a well-formed path template whose placeholders are not
named resource_uri and an argument map of brace-free string values, the
named-argument URL builder substitutes each argument whose name matches a
placeholder into that placeholder once, treats every other argument except
the reserved resource_uri key as a query parameter appended as a
percent-encoded suffix in map order with no question mark when no non-empty
query value exists, and, when the map supplies all placeholder names and the
base URL, argument keys and ASCII argument values are brace-free, the output
contains no remaining brace. -/
theorem c1_named_builder_amended (registryURL : Str) (model : Option ModelInfo)
    (params : List (Str × Str)) (tmpl : Str) (ts : List Tok)
    (hts : tmpl = renderToks ts) (hwf : toksWF ts = true)
    (hnoru : rURI ∉ capNames ts)
    (hvals : ∀ kv ∈ params, braceFree kv.2) :
    (BuildAPIURLWithParams registryURL model tmpl params
      = dropTrailing '/' (baseOf registryURL model)
        ++ substNamed ts (lookupArg params)
        ++ querySuffixOf params (capNames ts))
    ∧ ((∀ n ∈ capNames ts, (mapLookup params n).isSome = true) →
       braceFree registryURL → (∀ mi, model = some mi → braceFree mi.basePath) →
       (∀ kv ∈ params, braceFree kv.1) →
       (∀ kv ∈ params, ∀ c ∈ kv.2, c.toNat < 128) →
       '\x7b' ∉ BuildAPIURLWithParams registryURL model tmpl params
       ∧ '\x7d' ∉ BuildAPIURLWithParams registryURL model tmpl params)
    ∧ ((∀ kv ∈ params, kv.1 = rURI ∨ kv.1 ∈ capNames ts ∨ kv.2 = []) →
       '?' ∉ registryURL → (∀ mi, model = some mi → '?' ∉ mi.basePath) →
       '?' ∉ renderToks ts → (∀ kv ∈ params, '?' ∉ kv.2) →
       '?' ∉ BuildAPIURLWithParams registryURL model tmpl params) := by
  have heq := buildWithParams_eq registryURL model params hts hwf hnoru hvals
  refine ⟨heq, ?_, ?_⟩
  · intro hsup hbr hbm hkeys hascii
    constructor
    · intro hmem
      rw [heq] at hmem
      rcases mem_build_output hmem with h | ⟨mi, hmi, h⟩ | h | ⟨l, hl, h⟩ | ⟨n, v, hn, h⟩
        | ⟨n, hn, hnone, h⟩ | ⟨h, _⟩ | ⟨⟨kv, hkv, h⟩, _⟩ | ⟨⟨kv, hkv, h⟩, _⟩
      · exact hbr.1 h
      · exact (hbm mi hmi).1 h
      · exact absurd h (by decide)
      · exact ((litOK_spec (toksWF_mem_lit hwf hl)).2).1 h
      · obtain ⟨hlk, _⟩ := lookupArg_some hn
        exact ((hvals (n, v) (mapLookup_mem hlk)).1) h
      · have hnc : n ∈ capNames ts := mem_capNames.2 hn
        obtain ⟨v, hv⟩ := Option.isSome_iff_exists.1 (hsup n hnc)
        have hnr : n ≠ rURI := fun he => hnoru (he ▸ hnc)
        have hx : lookupArg params n = some v := by
          rw [lookupArg, if_neg hnr, hv]
        rw [hx] at hnone
        exact Option.noConfusion hnone
      · rcases h with h | h | h <;> exact absurd h (by decide)
      · exact ((hkeys kv hkv).1) h
      · exact absurd rfl (queryEscape_no_special (hascii kv hkv) _ h).1
    · intro hmem
      rw [heq] at hmem
      rcases mem_build_output hmem with h | ⟨mi, hmi, h⟩ | h | ⟨l, hl, h⟩ | ⟨n, v, hn, h⟩
        | ⟨n, hn, hnone, h⟩ | ⟨h, _⟩ | ⟨⟨kv, hkv, h⟩, _⟩ | ⟨⟨kv, hkv, h⟩, _⟩
      · exact hbr.2 h
      · exact (hbm mi hmi).2 h
      · exact absurd h (by decide)
      · exact ((litOK_spec (toksWF_mem_lit hwf hl)).2).2 h
      · obtain ⟨hlk, _⟩ := lookupArg_some hn
        exact ((hvals (n, v) (mapLookup_mem hlk)).2) h
      · have hnc : n ∈ capNames ts := mem_capNames.2 hn
        obtain ⟨v, hv⟩ := Option.isSome_iff_exists.1 (hsup n hnc)
        have hnr : n ≠ rURI := fun he => hnoru (he ▸ hnc)
        have hx : lookupArg params n = some v := by
          rw [lookupArg, if_neg hnr, hv]
        rw [hx] at hnone
        exact Option.noConfusion hnone
      · rcases h with h | h | h <;> exact absurd h (by decide)
      · exact ((hkeys kv hkv).2) h
      · exact absurd rfl (queryEscape_no_special (hascii kv hkv) _ h).2.1
  · intro hnoq hq1 hq2 hq3 hq4
    intro hmem
    have hqnil : queryItems params (capNames ts) = [] := queryItems_nil_of hnoq
    rw [heq] at hmem
    rcases mem_build_output hmem with h | ⟨mi, hmi, h⟩ | h | ⟨l, hl, h⟩ | ⟨n, v, hn, h⟩
      | ⟨n, hn, hnone, h⟩ | ⟨_, hne⟩ | ⟨_, hne⟩ | ⟨_, hne⟩
    · exact hq1 h
    · exact hq2 mi hmi h
    · exact absurd h (by decide)
    · exact hq3 (render_chars_lit hl h)
    · obtain ⟨hlk, _⟩ := lookupArg_some hn
      exact hq4 (n, v) (mapLookup_mem hlk) h
    · rcases h with h | h | h
      · exact absurd h (by decide)
      · exact absurd h (by decide)
      · exact hq3 (render_chars_cap hn h)
    · exact hne hqnil
    · exact hne hqnil
    · exact hne hqnil

/-- C1 (counterexample) — a template whose only placeholder is named
resource_uri: the argument map supplies every placeholder name, yet the
reserved key is skipped by the builder and an opening brace remains in the
output URL. -/
theorem c1_counterexample :
    (∀ n ∈ extractPathParameterNames (strL "/api/\x7bresource_uri\x7d"),
      (mapLookup [(strL "resource_uri", strL "x")] n).isSome = true)
    ∧ '\x7b' ∈ BuildAPIURLWithParams (strL "https://quay.io") none
        (strL "/api/\x7bresource_uri\x7d") [(strL "resource_uri", strL "x")] := by
  decide

/-- C1 (witness) — the amended theorem evaluated at a concrete endpoint with
one path argument and one query argument. -/
theorem c1_witness :
    (BuildAPIURLWithParams (strL "https://quay.io") none (strL "/repo/\x7bx\x7d")
        [(strL "x", strL "v1"), (strL "q", strL "a b")]
      = dropTrailing '/' (baseOf (strL "https://quay.io") none)
        ++ substNamed [Tok.lit (strL "/repo/"), Tok.cap (strL "x")]
            (lookupArg [(strL "x", strL "v1"), (strL "q", strL "a b")])
        ++ querySuffixOf [(strL "x", strL "v1"), (strL "q", strL "a b")]
            (capNames [Tok.lit (strL "/repo/"), Tok.cap (strL "x")]))
    ∧ '\x7b' ∉ BuildAPIURLWithParams (strL "https://quay.io") none (strL "/repo/\x7bx\x7d")
        [(strL "x", strL "v1"), (strL "q", strL "a b")] := by
  have h := c1_named_builder_amended (strL "https://quay.io") none
    [(strL "x", strL "v1"), (strL "q", strL "a b")] (strL "/repo/\x7bx\x7d")
    [Tok.lit (strL "/repo/"), Tok.cap (strL "x")]
    (by decide) (by decide) (by decide) (by decide)
  exact ⟨h.1, (h.2.1 (by decide) (by decide) (fun mi hmi => Option.noConfusion hmi)
    (by decide) (by decide)).1⟩

/-- C2 — the built URL depends on the iteration order of the argument map:
the same two query arguments presented in the two orders a Go map range may
produce yield different output bytes, refuting byte-identical determinism. -/
theorem c2_query_order_dependent :
    [(strL "a", strL "1"), (strL "b", strL "2")].Perm
      [(strL "b", strL "2"), (strL "a", strL "1")]
    ∧ BuildAPIURLWithParams (strL "https://quay.io") none (strL "/r")
        [(strL "a", strL "1"), (strL "b", strL "2")]
      ≠ BuildAPIURLWithParams (strL "https://quay.io") none (strL "/r")
        [(strL "b", strL "2"), (strL "a", strL "1")] := by
  constructor
  · exact List.Perm.swap _ _ _
  · decide

/-- C4 (amended) — for templates whose literal text is free of regexp
metacharacters, extraction matches the key against the template with one
non-empty single-segment capture per placeholder, anchored at both ends: the
documented example yields the expected values; a key that does not decompose
into the template shape yields the empty map and no error, and a successful
match assigns the captured values to the placeholder names in order.  The
unrestricted claim is false: the literal text is spliced into the compiled
pattern as regexp source (c4_counterexample). -/
theorem c4_extraction (tmpl : Str) (ts : List Tok) (key : Str)
    (hts : tmpl = renderToks ts) (hwf : toksWF ts = true)
    (hpl : plainToks ts = true)
    (hdis : (capNames ts).Pairwise (· ≠ ·)) :
    (extractPathParameters (strL "quay://api/v1/repository/myorg/myrepo")
        (strL "/api/v1/repository/\x7bnamespace\x7d/\x7brepository\x7d")
      = [(strL "namespace", strL "myorg"), (strL "repository", strL "myrepo")])
    ∧ ((¬ ∃ caps, TemplateMatch ts (normKey key) caps) →
        extractPathParameters key tmpl = [])
    ∧ (∀ caps, matchToks ts (normKey key) = some caps →
        extractPathParameters key tmpl = (capNames ts).zip caps
        ∧ TemplateMatch ts (normKey key) caps) := by
  refine ⟨by decide, ?_, ?_⟩
  · intro hno
    cases hm : matchToks ts (normKey key) with
    | none => exact extractPathParameters_no_match hts hwf hpl hm
    | some caps => exact absurd ⟨caps, matchToks_sound _ _ _ hm⟩ hno
  · intro caps hm
    exact ⟨extractPathParameters_eq_zip hts hwf hpl hdis hm, matchToks_sound _ _ _ hm⟩

/-- C4 (witness) — the extraction characterization evaluated on the user
endpoint template and a key missing its final segment. -/
theorem c4_witness :
    (extractPathParameters (strL "quay://api/v1/repository/myorg/myrepo")
        (strL "/api/v1/repository/\x7bnamespace\x7d/\x7brepository\x7d")
      = [(strL "namespace", strL "myorg"), (strL "repository", strL "myrepo")])
    ∧ ((¬ ∃ caps, TemplateMatch [Tok.lit (strL "/api/v1/user/"), Tok.cap (strL "username")]
        (normKey (strL "quay://api/v1/user")) caps) →
        extractPathParameters (strL "quay://api/v1/user")
          (strL "/api/v1/user/\x7busername\x7d") = [])
    ∧ (∀ caps, matchToks [Tok.lit (strL "/api/v1/user/"), Tok.cap (strL "username")]
        (normKey (strL "quay://api/v1/user")) = some caps →
        extractPathParameters (strL "quay://api/v1/user")
            (strL "/api/v1/user/\x7busername\x7d")
          = (capNames [Tok.lit (strL "/api/v1/user/"), Tok.cap (strL "username")]).zip caps
        ∧ TemplateMatch [Tok.lit (strL "/api/v1/user/"), Tok.cap (strL "username")]
            (normKey (strL "quay://api/v1/user")) caps) :=
  c4_extraction (strL "/api/v1/user/\x7busername\x7d")
    [Tok.lit (strL "/api/v1/user/"), Tok.cap (strL "username")]
    (strL "quay://api/v1/user") (by decide) (by decide) (by decide) (by decide)

/-- C4 (counterexample) — the template literal text is regexp source: in the
template /api.v1/ followed by a placeholder named x, the dot of the compiled
pattern matches any character, so the key quay://apiXv1/v — which the
verbatim reading of the template rejects — still yields a non-empty
parameter map instead of the empty map the claim requires for a key that
does not match the template shape. -/
theorem c4_counterexample :
    matchToks (parseToks (strL "/api.v1/\x7bx\x7d"))
      (normKey (strL "quay://apiXv1/v")) = none
    ∧ extractPathParameters (strL "quay://apiXv1/v") (strL "/api.v1/\x7bx\x7d")
      = [(strL "x", strL "v")] := by
  decide

theorem substNamed_split {f : Str → Option Str} {n v : Str} :
    ∀ {ts : List Tok}, Tok.cap n ∈ ts → f n = some v →
      ∃ X Y, substNamed ts f = X ++ (v ++ Y) := by
  intro ts
  induction ts with
  | nil => intro h _; simp at h
  | cons t ts ih =>
    intro hmem hf
    rcases List.mem_cons.1 hmem with h1 | h1
    · refine ⟨[], substNamed ts f, ?_⟩
      rw [← h1, substNamed, hf]
      simp
    · obtain ⟨X, Y, hXY⟩ := ih h1 hf
      cases t with
      | lit l =>
        refine ⟨l ++ X, Y, ?_⟩
        rw [substNamed, hXY]
        simp
      | cap m =>
        refine ⟨(match f m with | some u => u | none => '\x7b' :: (m ++ ['\x7d'])) ++ X,
          Y, ?_⟩
        rw [substNamed, hXY]
        simp

/-- C10 — path-parameter values are substituted verbatim with no escaping
while query values are percent-encoded: a supplied placeholder value appears
as a contiguous verbatim substring of the output URL, reserved characters
included, whereas a query entry appears as its key, an equals sign and the
percent-encoded value, whose escaped text contains no slash and no question
mark. -/
theorem c10_path_verbatim_query_escaped (registryURL : Str) (model : Option ModelInfo)
    (params : List (Str × Str)) (tmpl : Str) (ts : List Tok) (n v k w : Str)
    (hts : tmpl = renderToks ts) (hwf : toksWF ts = true)
    (hnoru : rURI ∉ capNames ts)
    (hvals : ∀ kv ∈ params, braceFree kv.2)
    (hn : Tok.cap n ∈ ts) (hv : lookupArg params n = some v)
    (hkw : (k, w) ∈ params) (hk1 : k ≠ rURI) (hk2 : k ∉ capNames ts) (hw : w ≠ [])
    (hwa : ∀ c ∈ w, c.toNat < 128) :
    (∃ A B, BuildAPIURLWithParams registryURL model tmpl params = A ++ (v ++ B))
    ∧ (∃ A B, BuildAPIURLWithParams registryURL model tmpl params
        = A ++ ((k ++ '=' :: queryEscape w) ++ B))
    ∧ '/' ∉ queryEscape w ∧ '?' ∉ queryEscape w := by
  have heq := buildWithParams_eq registryURL model params hts hwf hnoru hvals
  refine ⟨?_, ?_, ?_, ?_⟩
  · obtain ⟨X, Y, hXY⟩ := substNamed_split hn hv
    refine ⟨dropTrailing '/' (baseOf registryURL model) ++ X,
      Y ++ querySuffixOf params (capNames ts), ?_⟩
    rw [heq, hXY]
    simp
  · have hitem : (k ++ '=' :: queryEscape w) ∈ queryItems params (capNames ts) := by
      rw [queryItems]
      apply List.mem_filterMap.2
      refine ⟨(k, w), hkw, ?_⟩
      rw [if_neg]
      push_neg
      exact ⟨hk1, fun hc => hk2 (List.mem_of_elem_eq_true hc), hw⟩
    have hne : ¬ (queryItems params (capNames ts)).isEmpty = true := by
      intro hq
      have hnil : queryItems params (capNames ts) = [] := by
        cases hql : queryItems params (capNames ts) with
        | nil => rfl
        | cons a l => rw [hql] at hq; simp at hq
      rw [hnil] at hitem
      simp at hitem
    obtain ⟨A2, B2, hAB⟩ := intercalate_amp_split hitem
    refine ⟨dropTrailing '/' (baseOf registryURL model)
      ++ substNamed ts (lookupArg params) ++ '?' :: A2, B2, ?_⟩
    rw [heq, querySuffixOf, if_neg hne, hAB]
    simp
  · intro hc
    exact (queryEscape_no_special hwa _ hc).2.2.2 rfl
  · intro hc
    exact (queryEscape_no_special hwa _ hc).2.2.1 rfl

/-- C10 (witness) — evaluated with a path value and a query value that both
contain a slash. -/
theorem c10_witness :
    (∃ A B, BuildAPIURLWithParams (strL "https://quay.io") none (strL "/r/\x7bx\x7d")
        [(strL "x", strL "a/b"), (strL "q", strL "c/d")] = A ++ (strL "a/b" ++ B))
    ∧ (∃ A B, BuildAPIURLWithParams (strL "https://quay.io") none (strL "/r/\x7bx\x7d")
        [(strL "x", strL "a/b"), (strL "q", strL "c/d")]
        = A ++ ((strL "q" ++ '=' :: queryEscape (strL "c/d")) ++ B))
    ∧ '/' ∉ queryEscape (strL "c/d") ∧ '?' ∉ queryEscape (strL "c/d") :=
  c10_path_verbatim_query_escaped (strL "https://quay.io") none
    [(strL "x", strL "a/b"), (strL "q", strL "c/d")] (strL "/r/\x7bx\x7d")
    [Tok.lit (strL "/r/"), Tok.cap (strL "x")] (strL "x") (strL "a/b") (strL "q")
    (strL "c/d") (by decide) (by decide) (by decide) (by decide) (by decide) (by decide)
    (by decide) (by decide) (by decide) (by decide) (by decide)

theorem discoverStep (eps : List (Str × EndpointInfo)) (pi : Str × PathItem) :
    (match pi.2.get with
     | none => eps
     | some op =>
       if hasAllowedTag op.tags allowedTagsDiscover then
         mapAssign eps (mkURI pi.1) (mkEndpointInfo pi.1 op)
       else eps)
    = (match entryOf pi with
       | none => eps
       | some kv => mapAssign eps kv.1 kv.2) := by
  cases hg : pi.2.get with
  | none => simp [entryOf, hg]
  | some op =>
    by_cases h : hasAllowedTag op.tags allowedTagsDiscover <;> simp [entryOf, hg, h]

theorem discover_foldl :
    ∀ (paths : List (Str × PathItem)) (acc : List (Str × EndpointInfo)),
      ((paths.filterMap entryOf).map Prod.fst).Pairwise (· ≠ ·) →
      (∀ k ∈ (paths.filterMap entryOf).map Prod.fst, k ∉ acc.map Prod.fst) →
      paths.foldl (fun eps pi =>
        match pi.2.get with
        | none => eps
        | some op =>
          if hasAllowedTag op.tags allowedTagsDiscover then
            mapAssign eps (mkURI pi.1) (mkEndpointInfo pi.1 op)
          else eps) acc
      = acc ++ paths.filterMap entryOf := by
  intro paths
  induction paths with
  | nil => intro acc _ _; simp
  | cons pi rest ih =>
    intro acc hpw hfresh
    simp only [List.foldl_cons]
    rw [discoverStep acc pi]
    cases he : entryOf pi with
    | none =>
      simp only [List.filterMap_cons, he] at hpw hfresh ⊢
      exact ih acc hpw hfresh
    | some kv =>
      simp only [List.filterMap_cons, he, List.map_cons] at hpw hfresh ⊢
      simp only [List.pairwise_cons] at hpw
      have hk : kv.1 ∉ acc.map Prod.fst :=
        hfresh kv.1 (List.mem_cons_self kv.1 ((rest.filterMap entryOf).map Prod.fst))
      rw [mapAssign_fresh kv.2 hk]
      have hfresh2 : ∀ k ∈ (rest.filterMap entryOf).map Prod.fst,
          k ∉ (acc ++ [(kv.1, kv.2)]).map Prod.fst := by
        intro k hkr
        simp only [List.map_append, List.mem_append]
        intro hor
        rcases hor with h1 | h1
        · exact hfresh k (List.mem_cons_of_mem kv.1 hkr) h1
        · simp only [List.map_cons, List.map_nil, List.mem_singleton] at h1
          exact hpw.1 k hkr h1.symm
      rw [ih (acc ++ [(kv.1, kv.2)]) hpw.2 hfresh2]
      rw [List.append_assoc]
      rfl

theorem entryOf_eq_some {pi : Str × PathItem} {k : Str} {e : EndpointInfo} :
    entryOf pi = some (k, e) ↔
      ∃ op, pi.2.get = some op ∧ hasAllowedTag op.tags allowedTagsDiscover = true
        ∧ k = mkURI pi.1 ∧ e = mkEndpointInfo pi.1 op := by
  constructor
  · intro h
    cases hg : pi.2.get with
    | none => simp [entryOf, hg] at h
    | some op =>
      by_cases ht : hasAllowedTag op.tags allowedTagsDiscover
      · simp only [entryOf, hg, if_pos ht, Option.some.injEq, Prod.mk.injEq] at h
        exact ⟨op, rfl, ht, h.1.symm, h.2.symm⟩
      · simp [entryOf, hg, ht] at h
  · rintro ⟨op, hg, ht, hk, he⟩
    subst hk; subst he
    simp [entryOf, hg, ht]

/-- C5 — amended with the hypothesis that the synthesized resource keys of
the qualifying operations are pairwise distinct: under it the catalog is
exactly the set of GET operations whose tag set meets the allowed tag set
(case-sensitive), every other operation is absent, and an absent or empty
model yields an empty catalog rather than an error.  Without the hypothesis
later qualifying operations silently overwrite earlier ones. -/
theorem c5_catalog_amended (paths : List (Str × PathItem))
    (hdis : ((paths.filterMap entryOf).map Prod.fst).Pairwise (· ≠ ·)) :
    DiscoverEndpoints none = []
    ∧ DiscoverEndpoints (some []) = []
    ∧ DiscoverEndpoints (some paths) = paths.filterMap entryOf
    ∧ (∀ k e, (k, e) ∈ DiscoverEndpoints (some paths) ↔
        ∃ pi ∈ paths, ∃ op, pi.2.get = some op
          ∧ hasAllowedTag op.tags allowedTagsDiscover = true
          ∧ k = mkURI pi.1 ∧ e = mkEndpointInfo pi.1 op) := by
  have hmain : DiscoverEndpoints (some paths) = paths.filterMap entryOf := by
    show paths.foldl (fun eps pi =>
      match pi.2.get with
      | none => eps
      | some op =>
        if hasAllowedTag op.tags allowedTagsDiscover then
          mapAssign eps (mkURI pi.1) (mkEndpointInfo pi.1 op)
        else eps) [] = paths.filterMap entryOf
    have h := discover_foldl paths [] hdis (by intro k _; simp)
    simpa using h
  refine ⟨rfl, rfl, hmain, ?_⟩
  intro k e
  rw [hmain, List.mem_filterMap]
  constructor
  · rintro ⟨pi, hpi, hent⟩
    obtain ⟨op, hg, ht, hk, he⟩ := entryOf_eq_some.1 hent
    exact ⟨pi, hpi, op, hg, ht, hk, he⟩
  · rintro ⟨pi, hpi, op, hg, ht, hk, he⟩
    exact ⟨pi, hpi, entryOf_eq_some.2 ⟨op, hg, ht, hk, he⟩⟩

/-- C5 (counterexample) — the paths "x" and "/x" synthesize the same
resource key: the first operation carries a GET method and an allowed tag,
yet its catalog entry is absent, silently overwritten by the second. -/
theorem c5_counterexample :
    (strL "x", ({ get := some { summary := strL "one", tags := [strL "repository"] } }
        : PathItem))
      ∈ [(strL "x", ({ get := some { summary := strL "one", tags := [strL "repository"] } }
            : PathItem)),
         (strL "/x", ({ get := some { summary := strL "two", tags := [strL "repository"] } }
            : PathItem))]
    ∧ hasAllowedTag ({ summary := strL "one", tags := [strL "repository"] }
        : Operation).tags allowedTagsDiscover = true
    ∧ (mkURI (strL "x"),
        mkEndpointInfo (strL "x") { summary := strL "one", tags := [strL "repository"] })
      ∉ DiscoverEndpoints (some
        [(strL "x", ({ get := some { summary := strL "one", tags := [strL "repository"] } }
            : PathItem)),
         (strL "/x", ({ get := some { summary := strL "two", tags := [strL "repository"] } }
            : PathItem))]) := by
  decide

/-- C5 (witness) — the amended catalog characterization evaluated on a
one-path model with an allowed repository tag. -/
theorem c5_witness :
    DiscoverEndpoints none = []
    ∧ DiscoverEndpoints (some []) = []
    ∧ DiscoverEndpoints (some [(strL "/a", ({ get := some { tags := [strL "repository"] } }
        : PathItem))])
      = [(strL "/a", ({ get := some { tags := [strL "repository"] } }
          : PathItem))].filterMap entryOf
    ∧ (∀ k e, (k, e) ∈ DiscoverEndpoints (some
          [(strL "/a", ({ get := some { tags := [strL "repository"] } } : PathItem))]) ↔
        ∃ pi ∈ [(strL "/a", ({ get := some { tags := [strL "repository"] } } : PathItem))],
          ∃ op, pi.2.get = some op
            ∧ hasAllowedTag op.tags allowedTagsDiscover = true
            ∧ k = mkURI pi.1 ∧ e = mkEndpointInfo pi.1 op) :=
  c5_catalog_amended
    [(strL "/a", ({ get := some { tags := [strL "repository"] } } : PathItem))] (by decide)

/-- C6 — discovery requests the fallback URL exactly when the primary
response status is 404, and then only once; a primary transport failure, a
primary status that is neither 404 nor 200, and a 200 body the parser
rejects are each terminal errors with no further request; a primary 404
followed by a fallback 200 with a parsed body succeeds with that body. -/
theorem c6_fetch_retry (registryURL : Str) (primary fallback : DiscResp) :
    (primary = DiscResp.fail →
      (FetchSwaggerSpec registryURL primary fallback).requests = [primaryURL registryURL]
      ∧ (FetchSwaggerSpec registryURL primary fallback).outcome
          = Except.error DiscErr.transport)
    ∧ (∀ st body, primary = DiscResp.resp st body →
        (FetchSwaggerSpec registryURL primary fallback).requests
          = (if st = 404 then [primaryURL registryURL, fallbackURL registryURL]
             else [primaryURL registryURL]))
    ∧ (∀ st body, primary = DiscResp.resp st body → st ≠ 404 → st ≠ 200 →
        (FetchSwaggerSpec registryURL primary fallback).outcome
          = Except.error (DiscErr.badStatus st))
    ∧ (∀ body, primary = DiscResp.resp 200 body → body = none →
        (FetchSwaggerSpec registryURL primary fallback).outcome
          = Except.error DiscErr.parseFailed)
    ∧ (∀ body m, primary = DiscResp.resp 404 body → fallback = DiscResp.resp 200 (some m) →
        (FetchSwaggerSpec registryURL primary fallback).outcome = Except.ok m) := by
  refine ⟨?_, ?_, ?_, ?_, ?_⟩
  · intro h; subst h; exact ⟨rfl, rfl⟩
  · intro st body h; subst h
    by_cases h4 : st = 404
    · subst h4
      cases fallback <;> simp [FetchSwaggerSpec]
    · simp [FetchSwaggerSpec, h4]
  · intro st body h h4 h200; subst h
    simp [FetchSwaggerSpec, h4, finishFetch, h200]
  · intro body h hb; subst h; subst hb
    rfl
  · intro body m h hf; subst h; subst hf
    rfl

/-- C6 (witness) — evaluated with a primary 404 and a fallback 200 carrying
a parsed empty path map. -/
theorem c6_witness :
    (DiscResp.resp 404 none = DiscResp.fail →
      (FetchSwaggerSpec (strL "https://quay.io") (DiscResp.resp 404 none)
          (DiscResp.resp 200 (some []))).requests = [primaryURL (strL "https://quay.io")]
      ∧ (FetchSwaggerSpec (strL "https://quay.io") (DiscResp.resp 404 none)
          (DiscResp.resp 200 (some []))).outcome = Except.error DiscErr.transport)
    ∧ (∀ st body, DiscResp.resp 404 none = DiscResp.resp st body →
        (FetchSwaggerSpec (strL "https://quay.io") (DiscResp.resp 404 none)
            (DiscResp.resp 200 (some []))).requests
          = (if st = 404 then [primaryURL (strL "https://quay.io"),
                fallbackURL (strL "https://quay.io")]
             else [primaryURL (strL "https://quay.io")]))
    ∧ (∀ st body, DiscResp.resp 404 none = DiscResp.resp st body → st ≠ 404 → st ≠ 200 →
        (FetchSwaggerSpec (strL "https://quay.io") (DiscResp.resp 404 none)
            (DiscResp.resp 200 (some []))).outcome
          = Except.error (DiscErr.badStatus st))
    ∧ (∀ body, DiscResp.resp 404 none = DiscResp.resp 200 body → body = none →
        (FetchSwaggerSpec (strL "https://quay.io") (DiscResp.resp 404 none)
            (DiscResp.resp 200 (some []))).outcome = Except.error DiscErr.parseFailed)
    ∧ (∀ body m, DiscResp.resp 404 none = DiscResp.resp 404 body →
        DiscResp.resp 200 (some []) = DiscResp.resp 200 (some m) →
        (FetchSwaggerSpec (strL "https://quay.io") (DiscResp.resp 404 none)
            (DiscResp.resp 200 (some []))).outcome = Except.ok m) :=
  c6_fetch_retry (strL "https://quay.io") (DiscResp.resp 404 none)
    (DiscResp.resp 200 (some []))

/-- C7 — amended: both dispatchers issue exactly one request and never
retry; a transport failure is a typed error, a response is an error carrying
the status code and body exactly when the status is at least 400 — not when
it is merely outside the 2xx class — and otherwise the raw body is returned
unmodified. -/
theorem c7_dispatcher_amended (registryURL : Str) (model : Option ModelInfo)
    (endpointPath resourceURI : Str) (params : List (Str × Str)) (r : HTTPResp) :
    (MakeAPICall registryURL model endpointPath resourceURI r).requests
      = [BuildAPIURL registryURL model endpointPath resourceURI]
    ∧ (MakeAPICallWithParams registryURL model endpointPath params r).requests
      = [BuildAPIURLWithParams registryURL model endpointPath params]
    ∧ (r = HTTPResp.fail →
        (MakeAPICall registryURL model endpointPath resourceURI r).outcome
          = Except.error APIErr.transport
        ∧ (MakeAPICallWithParams registryURL model endpointPath params r).outcome
          = Except.error APIErr.transport)
    ∧ (∀ st body, r = HTTPResp.resp st body →
        (MakeAPICall registryURL model endpointPath resourceURI r).outcome
          = (if 400 ≤ st then Except.error (APIErr.api st body) else Except.ok body)
        ∧ (MakeAPICallWithParams registryURL model endpointPath params r).outcome
          = (if 400 ≤ st then Except.error (APIErr.api st body) else Except.ok body)) := by
  refine ⟨rfl, rfl, ?_, ?_⟩
  · intro h; subst h; exact ⟨rfl, rfl⟩
  · intro st body h; subst h; exact ⟨rfl, rfl⟩

/-- C7 (counterexample) — a 304 response is outside the 2xx class, yet the
dispatcher returns it as a success. -/
theorem c7_counterexample :
    (MakeAPICall (strL "https://quay.io") none (strL "/api/v1/plans/")
        (strL "quay://api/v1/plans/") (HTTPResp.resp 304 (strL "cached"))).outcome
      = Except.ok (strL "cached")
    ∧ ¬ is2xx 304 := by
  decide

/-- C7 (witness) — the amended dispatcher contract evaluated on a 500
response. -/
theorem c7_witness :
    (MakeAPICall (strL "https://quay.io") none (strL "/p") (strL "quay://p")
        (HTTPResp.resp 500 (strL "err"))).requests
      = [BuildAPIURL (strL "https://quay.io") none (strL "/p") (strL "quay://p")]
    ∧ (MakeAPICallWithParams (strL "https://quay.io") none (strL "/p") []
        (HTTPResp.resp 500 (strL "err"))).requests
      = [BuildAPIURLWithParams (strL "https://quay.io") none (strL "/p") []]
    ∧ (HTTPResp.resp 500 (strL "err") = HTTPResp.fail →
        (MakeAPICall (strL "https://quay.io") none (strL "/p") (strL "quay://p")
            (HTTPResp.resp 500 (strL "err"))).outcome = Except.error APIErr.transport
        ∧ (MakeAPICallWithParams (strL "https://quay.io") none (strL "/p") []
            (HTTPResp.resp 500 (strL "err"))).outcome = Except.error APIErr.transport)
    ∧ (∀ st body, HTTPResp.resp 500 (strL "err") = HTTPResp.resp st body →
        (MakeAPICall (strL "https://quay.io") none (strL "/p") (strL "quay://p")
            (HTTPResp.resp 500 (strL "err"))).outcome
          = (if 400 ≤ st then Except.error (APIErr.api st body) else Except.ok body)
        ∧ (MakeAPICallWithParams (strL "https://quay.io") none (strL "/p") []
            (HTTPResp.resp 500 (strL "err"))).outcome
          = (if 400 ≤ st then Except.error (APIErr.api st body) else Except.ok body)) :=
  c7_dispatcher_amended (strL "https://quay.io") none (strL "/p") (strL "quay://p") []
    (HTTPResp.resp 500 (strL "err"))

/-- C8 — neither collision is detected: two distinct path templates that
normalize to the same resource key leave a single silently overwritten
catalog entry, and two distinct endpoints deriving the same external tool
name yield two tools with the same name. -/
theorem c8_collisions_silently_merged :
    DiscoverEndpoints (some
        [(strL "y", ({ get := some { summary := strL "one", tags := [strL "organization"] } }
            : PathItem)),
         (strL "/y", ({ get := some { summary := strL "two", tags := [strL "organization"] } }
            : PathItem))])
      = [(strL "quay://y",
          mkEndpointInfo (strL "/y") { summary := strL "two", tags := [strL "organization"] })]
    ∧ (generateTools (some
        [(strL "/a/b", ({ get := some { tags := [strL "repository"] } } : PathItem)),
         (strL "/a/\x7bb\x7d", ({ get := some { tags := [strL "repository"] } }
            : PathItem))])).map Tool.name
      = [strL "quay_a_b", strL "quay_a_b"] := by
  decide

theorem pathFold_required :
    ∀ (names : List Str) (t : Tool),
      (names.foldl (fun t n =>
        { t with
          properties := insertName t.properties n,
          required := t.required ++ [n] }) t).required
      = t.required ++ names := by
  intro names
  induction names with
  | nil => intro t; simp
  | cons n rest ih =>
    intro t
    simp only [List.foldl_cons]
    rw [ih]
    simp

theorem queryFold_required :
    ∀ (ps : List Parameter) (t : Tool),
      (ps.foldl (fun t p =>
        if p.paramIn = strL "query" then
          { t with properties := insertName t.properties p.name }
        else t) t).required
      = t.required := by
  intro ps
  induction ps with
  | nil => intro t; simp
  | cons p rest ih =>
    intro t
    simp only [List.foldl_cons]
    by_cases h : p.paramIn = strL "query"
    · rw [if_pos h, ih]
    · rw [if_neg h, ih]

theorem mem_insertName_self (ps : List Str) (n : Str) : n ∈ insertName ps n := by
  by_cases h : ps.contains n
  · simp only [insertName, if_pos h]
    exact List.mem_of_elem_eq_true h
  · simp only [insertName, if_neg h]
    exact List.mem_append_right ps (List.mem_singleton.2 rfl)

theorem mem_insertName_of_mem {ps : List Str} {m : Str} (n : Str) (h : m ∈ ps) :
    m ∈ insertName ps n := by
  by_cases hc : ps.contains n
  · simp only [insertName, if_pos hc]
    exact h
  · simp only [insertName, if_neg hc]
    exact List.mem_append_left [n] h

theorem queryFold_props_mono :
    ∀ (ps : List Parameter) (t : Tool) (m : Str), m ∈ t.properties →
      m ∈ (ps.foldl (fun t p =>
        if p.paramIn = strL "query" then
          { t with properties := insertName t.properties p.name }
        else t) t).properties := by
  intro ps
  induction ps with
  | nil => intro t m hm; exact hm
  | cons p rest ih =>
    intro t m hm
    simp only [List.foldl_cons]
    by_cases h : p.paramIn = strL "query"
    · rw [if_pos h]
      exact ih _ m (mem_insertName_of_mem p.name hm)
    · rw [if_neg h]
      exact ih t m hm

theorem queryFold_props_mem :
    ∀ (ps : List Parameter) (t : Tool) (p : Parameter), p ∈ ps →
      p.paramIn = strL "query" →
      p.name ∈ (ps.foldl (fun t q =>
        if q.paramIn = strL "query" then
          { t with properties := insertName t.properties q.name }
        else t) t).properties := by
  intro ps
  induction ps with
  | nil => intro t p hp; simp at hp
  | cons q rest ih =>
    intro t p hp hpq
    rcases List.mem_cons.1 hp with h1 | h1
    · subst h1
      simp only [List.foldl_cons, if_pos hpq]
      exact queryFold_props_mono rest _ p.name (mem_insertName_self t.properties p.name)
    · simp only [List.foldl_cons]
      exact ih _ p h1 hpq

theorem extractNamesAux_none_of_no_open {path : Str} (h : '\x7b' ∉ path) :
    extractNamesAux none path = [] := by
  induction path with
  | nil => rfl
  | cons c rest ih =>
    have hc : c ≠ '\x7b' := fun he => h (he ▸ List.mem_cons_self c rest)
    have hr : '\x7b' ∉ rest := fun hm => h (List.mem_cons_of_mem c hm)
    simp only [extractNamesAux, if_neg hc]
    exact ih hr

theorem extractNamesAux_nil_of_no_close {path : Str} (h : '\x7d' ∉ path) :
    ∀ st, extractNamesAux st path = [] := by
  induction path with
  | nil => intro st; cases st <;> rfl
  | cons c rest ih =>
    intro st
    have hc : c ≠ '\x7d' := fun he => h (he ▸ List.mem_cons_self c rest)
    have hr : '\x7d' ∉ rest := fun hm => h (List.mem_cons_of_mem c hm)
    cases st with
    | none =>
      by_cases hb : c = '\x7b'
      · simp only [extractNamesAux, if_pos hb]
        exact ih hr _
      · simp only [extractNamesAux, if_neg hb]
        exact ih hr _
    | some pending =>
      simp only [extractNamesAux, if_neg hc]
      exact ih hr _

theorem extractPathParameterNames_nil_of_not_has {path : Str}
    (h : HasPathParameters path = false) : extractPathParameterNames path = [] := by
  rw [HasPathParameters, Bool.and_eq_false_iff] at h
  rcases h with h1 | h1
  · exact extractNamesAux_none_of_no_open (not_mem_of_contains_false h1)
  · exact extractNamesAux_nil_of_no_close (not_mem_of_contains_false h1) none

theorem toolOf_required (path : Str) (op : Operation) :
    (toolOf path op).required = extractPathParameterNames path := by
  by_cases h : HasPathParameters path
  · simp only [toolOf, if_pos h, queryFold_required, pathFold_required]
    simp
  · have hf : HasPathParameters path = false := by
      cases hv : HasPathParameters path
      · rfl
      · exact absurd hv h
    have hnil : extractPathParameterNames path = [] :=
      extractPathParameterNames_nil_of_not_has hf
    simp only [toolOf, if_neg h, queryFold_required, hnil]

theorem toolOf_props_rURI (path : Str) (op : Operation) :
    rURI ∈ (toolOf path op).properties := by
  simp only [toolOf]
  exact mem_insertName_self _ rURI

theorem toolOf_props_query (path : Str) (op : Operation) {p : Parameter}
    (hp : p ∈ op.parameters) (hpq : p.paramIn = strL "query") :
    p.name ∈ (toolOf path op).properties := by
  simp only [toolOf]
  exact mem_insertName_of_mem rURI (queryFold_props_mem op.parameters _ p hp hpq)

/-- C9 — amended with the hypotheses that no placeholder is named
resource_uri and that no declared query parameter shares a placeholder name:
under them the generated descriptor's required list is exactly the
placeholder-name list of the path template, every declared query parameter
is present as a property and never required regardless of its own required
flag, the reserved resource_uri property is present and never required, and
every qualifying catalog entry yields its descriptor in the generated tool
list. -/
theorem c9_tool_schema_amended (path : Str) (op : Operation)
    (hru : rURI ∉ extractPathParameterNames path)
    (hq : ∀ p ∈ op.parameters, p.paramIn = strL "query" →
        p.name ∉ extractPathParameterNames path) :
    (toolOf path op).required = extractPathParameterNames path
    ∧ (∀ p ∈ op.parameters, p.paramIn = strL "query" →
        p.name ∈ (toolOf path op).properties ∧ p.name ∉ (toolOf path op).required)
    ∧ rURI ∈ (toolOf path op).properties ∧ rURI ∉ (toolOf path op).required
    ∧ (∀ paths, (path, ({ get := some op } : PathItem)) ∈ paths →
        hasAllowedTag op.tags allowedTagsTools = true →
        toolOf path op ∈ generateTools (some paths)) := by
  refine ⟨toolOf_required path op, ?_, ?_, ?_, ?_⟩
  · intro p hp hpq
    refine ⟨toolOf_props_query path op hp hpq, ?_⟩
    rw [toolOf_required path op]
    exact hq p hp hpq
  · exact toolOf_props_rURI path op
  · rw [toolOf_required path op]
    exact hru
  · intro paths hmem ht
    show toolOf path op ∈ paths.filterMap (fun pi =>
      match pi.2.get with
      | none => none
      | some op =>
        if hasAllowedTag op.tags allowedTagsTools then some (toolOf pi.1 op) else none)
    apply List.mem_filterMap.2
    exact ⟨(path, { get := some op }), hmem, by simp [ht]⟩

/-- C9 (counterexample) — on a template whose single placeholder is named x,
an operation that declares a query parameter also named x sees that query
parameter in the required list of its descriptor. -/
theorem c9_counterexample :
    (toolOf (strL "/a/\x7bx\x7d")
        { parameters := [{ name := strL "x", paramIn := strL "query", description := [], required := false }] }).required = [strL "x"] := by
  decide

/-- C9 (witness) — the amended schema invariant evaluated on a template with
one placeholder named x and one declared query parameter named q. -/
theorem c9_witness :
    (toolOf (strL "/a/\x7bx\x7d")
        { tags := [strL "repository"],
          parameters := [{ name := strL "q", paramIn := strL "query", description := [], required := true }] }).required
      = extractPathParameterNames (strL "/a/\x7bx\x7d")
    ∧ (∀ p ∈ ({ tags := [strL "repository"],
                parameters := [{ name := strL "q", paramIn := strL "query", description := [], required := true }] } : Operation).parameters,
        p.paramIn = strL "query" →
        p.name ∈ (toolOf (strL "/a/\x7bx\x7d")
            { tags := [strL "repository"],
              parameters := [{ name := strL "q", paramIn := strL "query", description := [], required := true }] }).properties
        ∧ p.name ∉ (toolOf (strL "/a/\x7bx\x7d")
            { tags := [strL "repository"],
              parameters := [{ name := strL "q", paramIn := strL "query", description := [], required := true }] }).required)
    ∧ rURI ∈ (toolOf (strL "/a/\x7bx\x7d")
        { tags := [strL "repository"],
          parameters := [{ name := strL "q", paramIn := strL "query", description := [], required := true }] }).properties
    ∧ rURI ∉ (toolOf (strL "/a/\x7bx\x7d")
        { tags := [strL "repository"],
          parameters := [{ name := strL "q", paramIn := strL "query", description := [], required := true }] }).required
    ∧ (∀ paths, (strL "/a/\x7bx\x7d",
          ({ get := some { tags := [strL "repository"],
                           parameters := [{ name := strL "q", paramIn := strL "query", description := [], required := true }] } } : PathItem)) ∈ paths →
        hasAllowedTag ({ tags := [strL "repository"],
                         parameters := [{ name := strL "q", paramIn := strL "query", description := [], required := true }] } : Operation).tags
          allowedTagsTools = true →
        toolOf (strL "/a/\x7bx\x7d")
          { tags := [strL "repository"],
            parameters := [{ name := strL "q", paramIn := strL "query", description := [], required := true }] }
          ∈ generateTools (some paths)) :=
  c9_tool_schema_amended (strL "/a/\x7bx\x7d")
    { tags := [strL "repository"],
      parameters := [{ name := strL "q", paramIn := strL "query", description := [], required := true }] }
    (by decide) (by decide)

end QuayMCP
